import Mathlib

/-!
Verification of the `quizizz/cas` computer-algebra core against its
specification.  The Go sources are shallowly embedded: the expression AST
(`pkg/ast`), the simplification engine (`pkg/simplify`), the expansion engine
(`pkg/expand`) and the differentiator (`pkg/calculus`) are translated into
executable Lean definitions, and the claims are settled as theorems about
those definitions.

Modelling conventions (used consistently below):
* `big.Int` values are modelled as `ℤ`; `big.Int.Div` is Euclidean division
  (`Int.ediv`), `big.Int.GCD` is the non-negative gcd (`Int.gcd`).
* `big.Float` values are modelled as exact rationals (`ℚ`).  Every
  `big.Float` arising in the translated code paths is produced from exact
  integer arithmetic, where this model is exact.  Rounding of non-dyadic
  quotients (e.g. evaluating the rational 1/3) and the binary 256-bit
  parsing precision are not modelled; no claim below depends on them.
* Go's `int` is modelled as `ℤ`; the saturating `big.Float.Int64`
  conversion is modelled by `goInt64`.
* Go map iteration order is unspecified; the grouping maps of the
  simplifier are modelled as association lists iterated in insertion
  (first-seen) order, a fixed determinization of the Go behaviour.
* `Clone()` produces an equal value; in a purely functional model cloning
  is the identity and is therefore dropped.
-/

namespace CAS

/-- Saturating conversion from an arbitrary integer to the `int64` range,
modelling `big.Float.Int64` / Go integer conversion saturation. -/
def goInt64 (x : ℤ) : ℤ :=
  if x < -(2 ^ 63) then -(2 ^ 63)
  else if x > 2 ^ 63 - 1 then 2 ^ 63 - 1
  else x

/-- Euclidean division, modelling `big.Int.Div` (Go documents Euclidean
division: the remainder is non-negative). -/
def goDiv (a b : ℤ) : ℤ := Int.ediv a b

/-- Non-negative greatest common divisor, modelling `big.Int.GCD`
(Go returns a non-negative result for all inputs). -/
def goGCD (a b : ℤ) : ℤ := (Int.gcd a b : ℤ)

/-- The exact-value model of `big.Float`: an integer fraction.  Every
`big.Float` the translated code paths produce comes from exact integer
arithmetic, on which this model is exact; rounding of non-dyadic
quotients and the 53/256-bit precisions are not modelled (no claim
depends on them).  Values are compared by value (cross multiplication),
exactly as `big.Float.Cmp` compares; a zero `den` models the IEEE
infinity that `big.Float.Quo` by zero yields. -/
structure GoFloat where
  num : ℤ
  den : ℤ
  deriving DecidableEq

/-- The `big.Float` of an integer (`SetInt`). -/
def GoFloat.ofInt (n : ℤ) : GoFloat := ⟨n, 1⟩

/-- Exact product of two `big.Float` values. -/
def GoFloat.mul (a b : GoFloat) : GoFloat := ⟨a.num * b.num, a.den * b.den⟩

/-- Exact sum of two `big.Float` values. -/
def GoFloat.add (a b : GoFloat) : GoFloat := ⟨a.num * b.den + b.num * a.den, a.den * b.den⟩

/-- Exact quotient (`big.Float.Quo`); a zero divisor yields the infinity
`⟨num, 0⟩`, as in Go. -/
def GoFloat.quo (a b : GoFloat) : GoFloat := ⟨a.num * b.den, a.den * b.num⟩

/-- Value equality (`Cmp(..) == 0`): cross multiplication, valid for any
sign of the denominators. -/
def GoFloat.beq (a b : GoFloat) : Bool := a.num * b.den == b.num * a.den

/-- The sign of the value (`big.Float.Sign`); an infinity `⟨n, 0⟩` keeps
the sign of `n`, as in Go. -/
def GoFloat.sign (a : GoFloat) : ℤ :=
  if a.den < 0 then -a.num.sign else a.num.sign

/-- Whether the value is an integer (`big.Float.IsInt`). -/
def GoFloat.isInt (a : GoFloat) : Bool := a.den ∣ a.num

/-- The saturating `big.Float.Int64` (truncation toward zero, like Go's
conversion; every use below follows an `IsInt` check, where it is
exact). -/
def GoFloat.toInt64 (a : GoFloat) : ℤ := goInt64 (Int.tdiv a.num a.den)

/-- Whether the value is less than the other (cross multiplication with
denominator-sign correction). -/
def GoFloat.blt (a b : GoFloat) : Bool :=
  (a.num * b.den - b.num * a.den) * a.den.sign * b.den.sign < 0

/-- The reduced representation of a `GoFloat`'s value: divide out the
gcd and normalize the denominator's sign. -/
def GoFloat.reduce (a : GoFloat) : ℤ × ℤ :=
  let g := goGCD a.num a.den
  if g = 0 then (a.num, a.den)
  else
    let n := Int.ediv a.num g
    let d := Int.ediv a.den g
    if d < 0 then (-n, -d) else (n, d)

/-- Decimal rendering of a non-integral value `n/d` (reduced, `d > 0`)
with a terminating decimal expansion: the digit string of `|n| * 10^k / d`
for the least adequate `k ≥ 1`, with the decimal point inserted. -/
def decimalText (n d : ℤ) : String :=
  match (List.range 400).find? (fun k => Int.emod (n * 10 ^ (k + 1)) d = 0) with
  | some k0 =>
    let k := k0 + 1
    let sign := if n < 0 then "-" else ""
    let m := Int.ediv (|n| * 10 ^ k) d
    let digits := toString m
    let digits :=
      if digits.length ≤ k then
        String.mk (List.replicate (k + 1 - digits.length) '0') ++ digits
      else digits
    let L := digits.length
    sign ++ (digits.take (L - k)) ++ "." ++ (digits.drop (L - k))
  | none => "~" ++ toString n ++ "/" ++ toString d

/-- String rendering of a `big.Float` value, modelling `Text('g', -1)`:
the value is rendered in its reduced form, without a decimal point when
it is an integer.  The exponent (`%e`) form used by `'g'` for very large
or very small magnitudes is not modelled; no claim below renders such a
value. -/
def floatText (q : GoFloat) : String :=
  let r := GoFloat.reduce q
  if r.2 = 1 then toString r.1 else decimalText r.1 r.2

/-- The relation symbol of an `ast.Eq` node (`EqType` in `pkg/ast`). -/
inductive EqType where
  | eqEqual
  | eqLess
  | eqGreater
  | eqLessEqual
  | eqGreaterEqual
  | eqNotEqual

/-- String form of an `EqType`, from `(EqType).String` in `pkg/ast`. -/
def eqTypeString : EqType → String
  | .eqEqual => "="
  | .eqLess => "<"
  | .eqGreater => ">"
  | .eqLessEqual => "<="
  | .eqGreaterEqual => ">="
  | .eqNotEqual => "<>"

/-- The closed expression variant set of `pkg/ast`: `Int`, `Float`,
`Rational`, `Var`, `Const`, `Add`, `Mul`, `Pow`, `Func`, `Eq`.
`Add.terms`, `Mul.factors` and `Func.args` are ordered lists. -/
inductive Expr where
  | int (v : ℤ)
  | float (v : GoFloat)
  | rat (num den : ℤ)
  | var (name : String)
  | const (name : String) (v : GoFloat)
  | add (terms : List Expr)
  | mul (factors : List Expr)
  | pow (base exp : Expr)
  | func (name : String) (args : List Expr)
  | eq (left right : Expr) (t : EqType)

mutual

/-- String rendering, from the `String()` methods of the `pkg/ast` nodes:
`Add` joins terms with a `+` before every non-first term; `Mul` joins
factors with `*`, parenthesizing `Add` factors; `Pow` parenthesizes `Add`
and `Mul` bases and exponents; `Rational` always renders `num/den`. -/
def exprString : Expr → String
  | .int v => toString v
  | .float v => floatText v
  | .rat n d => toString n ++ "/" ++ toString d
  | .var name => name
  | .const name _ => name
  | .add ts =>
    match ts with
    | [] => "0"
    | [t] => exprString t
    | t :: rest => exprString t ++ String.join (addTailStrings rest)
  | .mul fs =>
    match fs with
    | [] => "1"
    | [f] => exprString f
    | fs => String.intercalate "*" (mulFactorStrings fs)
  | .pow b e =>
    let baseStr :=
      match b with
      | .add _ => "(" ++ exprString b ++ ")"
      | .mul _ => "(" ++ exprString b ++ ")"
      | _ => exprString b
    let expStr :=
      match e with
      | .add _ => "(" ++ exprString e ++ ")"
      | .mul _ => "(" ++ exprString e ++ ")"
      | _ => exprString e
    baseStr ++ "^" ++ expStr
  | .func name args =>
    match args with
    | [] => name ++ "()"
    | args => name ++ "(" ++ String.intercalate ", " (argStrings args) ++ ")"
  | .eq l r t => exprString l ++ eqTypeString t ++ exprString r

/-- Renderings of the non-first `Add` terms: a `+` is prefixed to every
one of them ("For KAS compatibility, always add + prefix"). -/
def addTailStrings : List Expr → List String
  | [] => []
  | t :: ts => ("+" ++ exprString t) :: addTailStrings ts

/-- Renderings of `Mul` factors, parenthesizing `Add` factors. -/
def mulFactorStrings : List Expr → List String
  | [] => []
  | f :: fs =>
    (match f with
     | .add _ => "(" ++ exprString f ++ ")"
     | _ => exprString f) :: mulFactorStrings fs

/-- Renderings of `Func` arguments. -/
def argStrings : List Expr → List String
  | [] => []
  | a :: args => exprString a :: argStrings args

end

mutual

/-- LaTeX rendering, from the `LaTeX()` methods of the `pkg/ast` nodes.
Unlike `String()`, a non-first `Add` term whose own rendering starts with
`-` is not prefixed with `+`. -/
def exprLaTeX : Expr → String
  | .int v => toString v
  | .float v => floatText v
  | .rat n d => if d = 1 then toString n else "\\frac\x7b" ++ toString n ++ "\x7d\x7b" ++ toString d ++ "\x7d"
  | .var name => name
  | .const name _ => if name = "pi" then "\\pi" else name
  | .add ts =>
    match ts with
    | [] => "0"
    | [t] => exprLaTeX t
    | t :: rest => exprLaTeX t ++ String.join (addTailLaTeX rest)
  | .mul fs =>
    match fs with
    | [] => "1"
    | [f] => exprLaTeX f
    | fs => String.intercalate " \\cdot " (mulFactorLaTeX fs)
  | .pow b e =>
    let baseStr :=
      match b with
      | .add _ => "(" ++ exprLaTeX b ++ ")"
      | .mul _ => "(" ++ exprLaTeX b ++ ")"
      | _ => exprLaTeX b
    baseStr ++ "^\x7b" ++ exprLaTeX e ++ "\x7d"
  | .func name args =>
    match name, args with
    | "sqrt", [a] => "\\sqrt\x7b" ++ exprLaTeX a ++ "\x7d"
    | "log", [a] => "\\log\x7b" ++ exprLaTeX a ++ "\x7d"
    | "ln", [a] => "\\ln\x7b" ++ exprLaTeX a ++ "\x7d"
    | name, args => "\\mathrm\x7b" ++ name ++ "\x7d(" ++ String.intercalate ", " (argLaTeX args) ++ ")"
  | .eq l r t =>
    let op :=
      match t with
      | .eqLessEqual => "\\le"
      | .eqGreaterEqual => "\\ge"
      | .eqNotEqual => "\\ne"
      | t => eqTypeString t
    exprLaTeX l ++ " " ++ op ++ " " ++ exprLaTeX r

/-- LaTeX renderings of the non-first `Add` terms: `+` is prefixed unless
the term's own rendering already starts with `-`. -/
def addTailLaTeX : List Expr → List String
  | [] => []
  | t :: ts =>
    let s := exprLaTeX t
    (if s.startsWith "-" then s else "+" ++ s) :: addTailLaTeX ts

/-- LaTeX renderings of `Mul` factors, parenthesizing `Add` factors. -/
def mulFactorLaTeX : List Expr → List String
  | [] => []
  | f :: fs =>
    (match f with
     | .add _ => "(" ++ exprLaTeX f ++ ")"
     | _ => exprLaTeX f) :: mulFactorLaTeX fs

/-- LaTeX renderings of `Func` arguments. -/
def argLaTeX : List Expr → List String
  | [] => []
  | a :: args => exprLaTeX a :: argLaTeX args

end

mutual

/-- Expression evaluation, from the `Eval(vars)` methods of the `pkg/ast`
nodes.  Errors are modelled as `none`.  Numeric leaves return their value
(`Rational` divides numerator by denominator, a zero denominator giving
the infinity `⟨n, 0⟩` as in Go); `Var` looks its name up, erring when
absent; `Add`/`Mul` fold with `+`/`×`; `Pow` repeats multiplication for
integer exponents and takes the reciprocal for negative ones, and falls
back to `float64` `math.Pow` for fractional exponents — a floating-point
path modelled as `none` and exercised by no claim; `Func` dispatches on
the name (`abs` is exact; the transcendental table of `mathfuncs.go` —
`sqrt`, `ln`, `log`, trig, hyperbolic — computes rounded binary floats
and is modelled as `none`, again exercised by no claim); `Eq` compares
both sides, yielding 1 or 0. -/
def evalExpr : Expr → List (String × GoFloat) → Option GoFloat
  | .int v, _ => some (GoFloat.ofInt v)
  | .float v, _ => some v
  | .rat n d, _ => some ⟨n, d⟩
  | .var name, vars =>
    match vars.lookup name with
    | some v => some v
    | none => none
  | .const _ v, _ => some v
  | .add ts, vars => evalSum ts vars
  | .mul fs, vars => evalProd fs vars
  | .pow b e, vars =>
    match evalExpr b vars, evalExpr e vars with
    | some bv, some ev =>
      if ev.isInt then
        let n := ev.toInt64
        if 0 ≤ n then some ((List.range n.toNat).foldl (fun acc _ => acc.mul bv) (GoFloat.ofInt 1))
        else
          some ((GoFloat.ofInt 1).quo
            ((List.range (-n).toNat).foldl (fun acc _ => acc.mul bv) (GoFloat.ofInt 1)))
      else none
    | _, _ => none
  | .func name args, vars =>
    match evalArgs args vars with
    | none => none
    | some vals =>
      match name, vals with
      | "abs", [v] => some ⟨|v.num|, |v.den|⟩
      | _, _ => none
  | .eq l r t, vars =>
    match evalExpr l vars, evalExpr r vars with
    | some lv, some rv =>
      some
        (GoFloat.ofInt
          (match t with
           | .eqEqual => if lv.beq rv then 1 else 0
           | .eqLess => if lv.blt rv then 1 else 0
           | .eqGreater => if rv.blt lv then 1 else 0
           | .eqLessEqual => if rv.blt lv then 0 else 1
           | .eqGreaterEqual => if lv.blt rv then 0 else 1
           | .eqNotEqual => if lv.beq rv then 0 else 1))
    | _, _ => none

/-- Fold of `Add.Eval`: sum the terms, propagating the first error. -/
def evalSum : List Expr → List (String × GoFloat) → Option GoFloat
  | [], _ => some (GoFloat.ofInt 0)
  | t :: ts, vars =>
    match evalExpr t vars, evalSum ts vars with
    | some v, some rest => some (v.add rest)
    | _, _ => none

/-- Fold of `Mul.Eval`: multiply the factors, propagating the first error. -/
def evalProd : List Expr → List (String × GoFloat) → Option GoFloat
  | [], _ => some (GoFloat.ofInt 1)
  | f :: fs, vars =>
    match evalExpr f vars, evalProd fs vars with
    | some v, some rest => some (v.mul rest)
    | _, _ => none

/-- Evaluation of a `Func` node's argument list, propagating errors. -/
def evalArgs : List Expr → List (String × GoFloat) → Option (List GoFloat)
  | [], _ => some []
  | a :: args, vars =>
    match evalExpr a vars, evalArgs args vars with
    | some v, some rest => some (v :: rest)
    | _, _ => none

end

/-- First-seen-order deduplication, from `removeDuplicates` in `pkg/ast`. -/
def removeDuplicates (l : List String) : List String :=
  (l.foldl (fun acc s => if s ∈ acc then acc else s :: acc) []).reverse

mutual

/-- Free variables of an expression in first-seen order, from the
`Variables()` methods: leaves contribute nothing (or their own name for
`Var`), composites concatenate their children's lists and deduplicate. -/
def variablesOf : Expr → List String
  | .int _ => []
  | .float _ => []
  | .rat _ _ => []
  | .const _ _ => []
  | .var name => [name]
  | .add ts => removeDuplicates (variablesList ts)
  | .mul fs => removeDuplicates (variablesList fs)
  | .pow b e => removeDuplicates (variablesOf b ++ variablesOf e)
  | .func _ args => removeDuplicates (variablesList args)
  | .eq l r _ => removeDuplicates (variablesOf l ++ variablesOf r)

/-- Concatenated variable lists of a node's children. -/
def variablesList : List Expr → List String
  | [] => []
  | t :: ts => variablesOf t ++ variablesList ts

end

/-- Constructor `ast.NewInt`. -/
def NewInt (v : ℤ) : Expr := .int v

/-- Constructor `ast.NewAdd`: stores the terms as given. -/
def NewAdd (terms : List Expr) : Expr := .add terms

/-- Constructor `ast.NewPow`: stores base and exponent as given (the power
rule is deliberately not applied at construction time). -/
def NewPow (base exp : Expr) : Expr := .pow base exp

/-- Constructor `ast.NewMul`.  It is not a plain node builder: an argument
list of exactly two `Int` factors whose first is `-1` and whose second is
positive is collapsed to a one-factor product holding the negation of the
second value's saturating `int64` conversion (the Go code reads the value
through `big.Float.Int64`, which caps at `2^63 - 1`); every other
argument list is stored exactly as given. -/
def NewMul (factors : List Expr) : Expr :=
  match factors with
  | [.int a, .int b] => if a = -1 ∧ 0 < b then .mul [.int (-(goInt64 b))] else .mul factors
  | _ => .mul factors

/-- The body of `(*Rational).reduce`: divide numerator and denominator by
their (non-negative) gcd, then flip both signs if the denominator is
negative. -/
def reduceRat (num den : ℤ) : ℤ × ℤ :=
  let g := goGCD num den
  let n := goDiv num g
  let d := goDiv den g
  if d < 0 then (-n, -d) else (n, d)

/-- Constructor `ast.NewRational`: builds the rational and reduces it. -/
def NewRational (num den : ℤ) : Expr :=
  let r := reduceRat num den
  .rat r.1 r.2

/-- Constructor `ast.NewRationalPreserved`: the compatibility constructor
that skips reduction. -/
def NewRationalPreserved (num den : ℤ) : Expr := .rat num den

/-- The numeric value of an `ast.Numeric` node (`Int`, `Float`,
`Rational` or `Const` — `*ast.Const` carries a `Value() *big.Float` and
therefore satisfies the interface), as returned by its `Eval`/`Value` (a
`Rational` with zero denominator yields the infinity `⟨n, 0⟩`, as
`big.Float.Quo` does in Go); `none` for non-numeric nodes. -/
def numericValue : Expr → Option GoFloat
  | .int v => some (GoFloat.ofInt v)
  | .float v => some v
  | .rat n d => some ⟨n, d⟩
  | .const _ v => some v
  | _ => none

/-- Type test for the `ast.Numeric` interface (`isNumeric` in
`pkg/simplify` and the `term.(ast.Numeric)` assertions of `pkg/ast`):
`Int`, `Float`, `Rational` and `Const` nodes all implement the
interface. -/
def isNumericE : Expr → Bool
  | .int _ => true
  | .float _ => true
  | .rat _ _ => true
  | .const _ _ => true
  | _ => false

/-- The numeric-leaf test of `(*Add).Simplify` and `(*Mul).Simplify`:
`Type() == TypeInt || TypeFloat || TypeRational`.  Unlike the
`ast.Numeric` interface test it deliberately excludes `Const`. -/
def isNumericType : Expr → Bool
  | .int _ => true
  | .float _ => true
  | .rat _ _ => true
  | _ => false

/-- Test from `isZero` in `pkg/simplify`: a numeric node (including a
`Const`) whose evaluated value has sign 0; non-numeric nodes are not
zero. -/
def isZero (e : Expr) : Bool :=
  match numericValue e with
  | some v => v.sign = 0
  | none => false

/-- Test from `isOne` in `pkg/simplify`: a numeric node (including a
`Const`) whose evaluated value is 1.  The `ast` package's own
`isOne`/`isZero` helpers (referenced by `(*Add).Factor`) are not among
the provided sources; they are only ever applied to `Int` nodes there,
on which any value test agrees with this one. -/
def isOne (e : Expr) : Bool :=
  match numericValue e with
  | some v => v.beq (GoFloat.ofInt 1)
  | none => false

/-- Tail of `(*Add).Simplify` after the terms are simplified: sum the
numeric terms, keep the rest, and prepend the sum (as a `Float`, via
`NewFloatFromString` of its rendering — an exact round trip) when it is
nonzero. -/
def addSimplifyBody (simplified : List Expr) : Expr :=
  let numericSum :=
    simplified.foldl
      (fun s t => if isNumericType t then s.add ((numericValue t).getD (GoFloat.ofInt 0)) else s)
      (GoFloat.ofInt 0)
  let nonNumeric := simplified.filter (fun t => !isNumericType t)
  let terms := if numericSum.sign ≠ 0 then Expr.float numericSum :: nonNumeric else nonNumeric
  match terms with
  | [] => .int 0
  | [t] => t
  | ts => .add ts

/-- Tail of `(*Mul).Simplify` after the factors are simplified: multiply
the numeric factors and keep the rest.  A zero product collapses the whole
expression to `0` — except that a two-factor list containing an `Int` `-1`
and an `Int` `0` is preserved as built ("For KAS compatibility: preserve
-1*0 as -1*0").  Otherwise the product (as a `Float`) is prepended when it
is not 1. -/
def mulSimplifyBody (simplified : List Expr) : Expr :=
  let numericProduct :=
    simplified.foldl
      (fun s t => if isNumericType t then s.mul ((numericValue t).getD (GoFloat.ofInt 0)) else s)
      (GoFloat.ofInt 1)
  let nonNumeric := simplified.filter (fun t => !isNumericType t)
  if numericProduct.sign = 0 then
    let hasMinusOne := simplified.any (fun t => match t with | .int v => v = -1 | _ => false)
    let hasZero := simplified.any (fun t => match t with | .int v => v = 0 | _ => false)
    if hasMinusOne ∧ hasZero ∧ simplified.length = 2 then .mul simplified
    else .int 0
  else
    let factors :=
      if !numericProduct.beq (GoFloat.ofInt 1) then Expr.float numericProduct :: nonNumeric
      else nonNumeric
    match factors with
    | [] => .int 1
    | [t] => t
    | fs => .mul fs

/-- Tail of `(*Pow).Simplify` after both children are simplified, with
the recursive simplification passed as `k`: `x^0 → 1`, `x^1 → x`, and the
power rule `(a^b)^c → a^(b·c)` with the freshly built exponent product
simplified. -/
def powSimplifyBody (k : Expr → Expr) (sb se : Expr) : Expr :=
  match se with
  | .int 0 => .int 1
  | .int 1 => sb
  | se =>
    match sb with
    | .pow ib ie => NewPow ib (k (NewMul [ie, se]))
    | sb => .pow sb se

/-- The `Simplify()` methods of the `pkg/ast` nodes, fuelled (the Go
recursion on freshly built nodes in the `Pow` power-rule case is not
structural; the fuel strictly decreases on every recursive call and the
top-level entry supplies an ample amount, returning the input unchanged
on exhaustion).  Leaves clone themselves; `Add` and `Mul` simplify their
children and fold the numeric ones; `Pow` applies `x^0 → 1`, `x^1 → x`
and the power rule; `Func` and `Eq` simplify their children. -/
def exprSimplifyF : Nat → Expr → Expr
  | 0, e => e
  | f + 1, e =>
    match e with
    | .add ts => addSimplifyBody (ts.map (exprSimplifyF f))
    | .mul fs => mulSimplifyBody (fs.map (exprSimplifyF f))
    | .pow b ex => powSimplifyBody (fun x => exprSimplifyF f x) (exprSimplifyF f b) (exprSimplifyF f ex)
    | .func n args => .func n (args.map (exprSimplifyF f))
    | .eq l r t => .eq (exprSimplifyF f l) (exprSimplifyF f r) t
    | e => e

/-- Top-level `Simplify()` with a fixed ample fuel. -/
def exprSimplify (e : Expr) : Expr := exprSimplifyF 1000 e

/-- The `(*Mul).partition` helper of the `ast` package (`part_002`):
split the factors into a combined numeric part (every `ast.Numeric`
factor, `Const` included) and a combined expression part.  Two `Int`s
multiply exactly in `big.Int`; as soon as a `Float`, `Rational` or
`Const` is involved the Go code multiplies `float64` conversions — the
product is modelled exactly as a `GoFloat`, which is faithful in every
use below (only the resulting node's type is ever inspected there). -/
def mulPartition (factors : List Expr) : Expr × Expr :=
  let numericTerms := factors.filter (fun t => isNumericE t)
  let exprTerms := factors.filter (fun t => !isNumericE t)
  let numPart :=
    numericTerms.foldl
      (fun np t =>
        match np, t with
        | .int a, .int b => .int (a * b)
        | np, t =>
          .float (((numericValue np).getD (GoFloat.ofInt 0)).mul
            ((numericValue t).getD (GoFloat.ofInt 0))))
      (.int 1)
  let exprPart :=
    match exprTerms with
    | [] => Expr.int 1
    | [t] => t
    | ts => NewMul ts
  (numPart, exprPart)

/-- The integer coefficient of one `Add` term as `(*Add).Factor` reads it:
the partitioned numeric part of a `Mul` (aborting — `none` — when it is
not an `Int`), the value of a bare `Int`, and 1 for everything else. -/
def termCoeff : Expr → Option ℤ
  | .mul fs =>
    match (mulPartition fs).1 with
    | .int c => some c
    | _ => none
  | .int c => some c
  | _ => some 1

/-- The coefficient-gcd loop of `(*Add).Factor`: fold the gcd of the
absolute coefficients, returning `none` ("return the sum unchanged") when
a term's coefficient is not an integer or as soon as the running gcd hits
1.  The accumulator starts at 0, so the first step yields the first
coefficient's absolute value, as in the Go code. -/
def factorGcdLoop : ℤ → List Expr → Option ℤ
  | g, [] => some g
  | g, t :: ts =>
    match termCoeff t with
    | none => none
    | some c =>
      let g2 := goGCD g |c|
      if g2 = 1 then none else factorGcdLoop g2 ts

/-- The second pass of `(*Add).Factor` on one term: divide a `Mul` term's
integer coefficient by the gcd (dropping the coefficient when the quotient
is 1), divide a bare `Int`, and append anything else unchanged (the Go
code appends nothing for a `Mul` whose partitioned coefficient is not an
`Int`; that case is unreachable once the gcd pass succeeded). -/
def factorReduceTerm (g : ℤ) : Expr → List Expr
  | .mul fs =>
    match mulPartition fs with
    | (.int c, exprPart) =>
      let q := goDiv c g
      if isOne (.int q) then [exprPart] else [NewMul [.int q, exprPart]]
    | _ => []
  | .int c => [.int (goDiv c g)]
  | t => [t]

/-- The GCD-based `(*Add).Factor` of the `ast` package (`part_002`): an
empty sum factors to `0` and a one-term sum to its term; otherwise the
terms' integer coefficients' gcd is computed (aborting to the unchanged
sum on a non-integer coefficient or gcd 1) and, when it exceeds 1,
divided out of every term, yielding `gcd × (sum of reduced terms)`. -/
def AddFactor : Expr → Expr
  | .add terms =>
    (match terms with
     | [] => .int 0
     | [t] => t
     | terms =>
       match factorGcdLoop 0 terms with
       | none => .add terms
       | some g =>
         if 1 < g then
           let factoredTerms := terms.flatMap (factorReduceTerm g)
           let factoredSum :=
             match factoredTerms with
             | [t] => t
             | ts => Expr.add ts
           NewMul [.int g, factoredSum]
         else .add terms)
  | e => e

mutual

/-- Recursive flattening of nested additions (`flattenAdd` in
`pkg/simplify`). -/
def flattenAdd : Expr → List Expr
  | .add ts => flattenAddList ts
  | e => [e]

/-- Flattening of a term list under `flattenAdd`. -/
def flattenAddList : List Expr → List Expr
  | [] => []
  | t :: ts => flattenAdd t ++ flattenAddList ts

end

mutual

/-- Recursive flattening of nested multiplications (`flattenMul` in
`pkg/simplify`). -/
def flattenMul : Expr → List Expr
  | .mul fs => flattenMulList fs
  | e => [e]

/-- Flattening of a factor list under `flattenMul`. -/
def flattenMulList : List Expr → List Expr
  | [] => []
  | t :: ts => flattenMul t ++ flattenMulList ts

end

/-- One bubble pass carrying the current element rightwards: adjacent
elements are swapped when the left one's rendering is lexicographically
greater. -/
def bubblePassGo : Expr → List Expr → List Expr
  | a, [] => [a]
  | a, b :: rest =>
    if exprString b < exprString a then b :: bubblePassGo a rest
    else a :: bubblePassGo b rest

/-- One full adjacent-swap pass over a list. -/
def bubblePass : List Expr → List Expr
  | [] => []
  | a :: rest => bubblePassGo a rest

/-- Iterated bubble passes. -/
def bubbleIter : Nat → List Expr → List Expr
  | 0, l => l
  | n + 1, l => bubbleIter n (bubblePass l)

/-- The bubble sort by rendered string of `normalizeAdd`/`normalizeMul`.
The Go code shrinks the inner bound after each pass; running every pass
over the full list performs the same swaps (the settled suffix causes no
further swaps), so the result is identical. -/
def bubbleSortByString (l : List Expr) : List Expr := bubbleIter (l.length - 1) l

/-- Canonicalization `Normalize` of `pkg/simplify`: sort the terms of an
`Add` and the factors of a `Mul` by their rendered strings (the byte
order Go compares with coincides with the code-point order compared here,
UTF-8 being order-preserving); `Pow` and everything else pass through. -/
def NormalizeGo : Expr → Expr
  | .add ts => NewAdd (bubbleSortByString ts)
  | .mul fs => NewMul (bubbleSortByString fs)
  | .pow b e => .pow b e
  | e => e

/-- The simplifier's equality `Equal`: rendered strings after
normalization. -/
def equalGo (a b : Expr) : Bool :=
  exprString (NormalizeGo a) == exprString (NormalizeGo b)

/-- The factor list of a `*ast.Mul` argument (such parameters always
receive `Mul` nodes in the Go code; other shapes cannot occur). -/
def mulTerms : Expr → List Expr
  | .mul fs => fs
  | e => [e]

/-- String-based term equality (`termsEqual` in `pkg/simplify`). -/
def termsEqual (a b : Expr) : Bool := exprString a == exprString b

/-- The factor view of one term (`extractFactors`): a `Mul`'s factors,
anything else as the single factor itself. -/
def extractFactors : Expr → List Expr
  | .mul fs => fs
  | e => [e]

/-- Whether some factor of `expr` renders equal to `factor`
(`containsFactor`). -/
def containsFactor (expr factor : Expr) : Bool :=
  (extractFactors expr).any (fun f => termsEqual f factor)

/-- Removal of the first factor rendering equal to the given one. -/
def removeFirstFactor : List Expr → Expr → List Expr
  | [], _ => []
  | t :: ts, fac => if termsEqual t fac then ts else t :: removeFirstFactor ts fac

/-- The `removeFactor` helper: drop the first matching factor and rebuild
(`1` for an emptied product, the bare factor for a singleton). -/
def removeFactor (fs : List Expr) (fac : Expr) : Expr :=
  match removeFirstFactor fs fac with
  | [] => NewInt 1
  | [t] => t
  | ts => NewMul ts

/-- The common factor of a sum's terms (`findCommonFactor`): those factors
of the first term contained (by rendered string) in every other term;
`none` when there are none, the bare factor for exactly one, a product
for several. -/
def findCommonFactor (terms : List Expr) : Option Expr :=
  match terms with
  | [] => none
  | t0 :: rest =>
    match (extractFactors t0).filter (fun fac => rest.all (fun t => containsFactor t fac)) with
    | [] => none
    | [c] => some c
    | cs => some (NewMul cs)

/-- The numeric/symbolic split of `partitionMul` in `pkg/simplify`: all
numeric factors are multiplied into one node (the single numeric factor
itself when there is exactly one, otherwise a `Float` built from the
product's rendering — an exact round trip), the remaining factors are
rebuilt as a product. -/
def partitionMulS (m : Expr) : Expr × Expr :=
  let terms := mulTerms m
  let numTerms := terms.filter (fun t => isNumericE t)
  let otherTerms := terms.filter (fun t => !isNumericE t)
  let numeric :=
    match numTerms with
    | [] => NewInt 1
    | [t] => t
    | t0 :: rest =>
      Expr.float
        (rest.foldl (fun acc t => acc.mul ((numericValue t).getD (GoFloat.ofInt 0)))
          ((numericValue t0).getD (GoFloat.ofInt 0)))
  let others :=
    match otherTerms with
    | [] => NewInt 1
    | [t] => t
    | ts => NewMul ts
  (numeric, others)

/-- The `(base, coefficient)` split of one `Add` term
(`extractCoefficientAndBase`): a numeric leaf is `(1, value)`; a `Mul` is
flattened, its numeric factors multiplied into the coefficient and the
rest (sorted through `normalizeMul` when several) forming the base;
anything else is `(term, 1)`.  `Rational` leaves fall to the default
case, as in the Go type switch. -/
def extractCoefficientAndBase : Expr → Expr × GoFloat
  | .int v => (NewInt 1, GoFloat.ofInt v)
  | .float v => (NewInt 1, v)
  | .mul fs =>
    let factors := flattenMul (.mul fs)
    let nonNumericFactors := factors.filter (fun t => !isNumericE t)
    let coeff :=
      factors.foldl
        (fun c t =>
          if isNumericE t then
            match numericValue t with
            | some v => c.mul v
            | none => c
          else c) (GoFloat.ofInt 1)
    let base :=
      match nonNumericFactors with
      | [] => NewInt 1
      | [b] => b
      | bs => NewMul (bubbleSortByString bs)
    (base, coeff)
  | t => (t, GoFloat.ofInt 1)

/-- Numeric simplification `collectNumeric`: a `Rational` is reduced; when
the reduced denominator is 1 the Go code returns the zero value
`&ast.Int{}` — a node holding a nil `big.Int`, modelled as the integer 0 —
discarding the reduced numerator; otherwise the reduced rational is
rebuilt.  Other numerics pass through. -/
def collectNumeric : Expr → Expr
  | .rat n d =>
    let g := goGCD n d
    let newNum := goDiv n g
    let newDen := goDiv d g
    if newDen = 1 then .int 0
    else NewRational newNum newDen
  | e => e

/-- Grouping of collected `Add` terms by the rendered string of their
base (`termGroups`/`coefficients` in `collectAdd`), an association list in
first-seen order: each group carries its terms and the running coefficient
sum. -/
def addGroups (terms : List Expr) : List (String × List Expr × GoFloat) :=
  terms.foldl
    (fun acc term =>
      let p := extractCoefficientAndBase term
      let key := exprString p.1
      if (acc.lookup key).isSome then
        acc.map (fun g => if g.1 = key then (g.1, g.2.1 ++ [term], g.2.2.add p.2) else g)
      else acc ++ [(key, [term], p.2)])
    []

/-- Reconstruction of one group in `collectAdd`: the base is re-extracted
unless the group is a single term with coefficient 1; zero-coefficient
groups are dropped; coefficient 1 yields the bare base, −1 a negated
base, and a general coefficient multiplies the base (an integral
coefficient through `Int64`, a fractional one as a `Float`). -/
def rebuildAddTerm (group : List Expr) (coeff : GoFloat) : List Expr :=
  let baseForm :=
    if group.length > 1 ∨ !coeff.beq (GoFloat.ofInt 1) then
      (extractCoefficientAndBase (group.headD (.int 1))).1
    else group.headD (.int 1)
  if coeff.sign = 0 then []
  else if coeff.beq (GoFloat.ofInt 1) then
    if exprString baseForm = "1" then [NewInt 1] else [baseForm]
  else if coeff.beq (GoFloat.ofInt (-1)) then
    if exprString baseForm = "1" then [NewInt (-1)] else [NewMul [NewInt (-1), baseForm]]
  else
    if exprString baseForm = "1" then
      if coeff.isInt then [NewInt coeff.toInt64] else [.float coeff]
    else
      if coeff.isInt then [NewMul [NewInt coeff.toInt64, baseForm]]
      else [NewMul [.float coeff, baseForm]]

/-- Tail of `collectAdd` after the flattened terms are recursively
collected: group, rebuild, and assemble (0 for no surviving group, the
bare term for one). -/
def collectAddBody (collected : List Expr) : Expr :=
  match (addGroups collected).flatMap (fun g => rebuildAddTerm g.2.1 g.2.2) with
  | [] => .int 0
  | [t] => t
  | ts => NewAdd ts

mutual

/-- The simplifier's `Collect`, fuelled: combination of like terms in
sums, like factors in products, the power rules on `Pow`, and rational
reduction on numeric leaves.  Each recursive call strictly decreases the
fuel; the top-level entry `CollectGo` supplies fuel that is ample for
every input considered in this development (on exhaustion the input is
returned unchanged).  The Go `Options` parameter is threaded through the
collect/factor/expand functions but never read by them and is dropped
here. -/
def CollectF : Nat → Expr → Expr
  | 0, e => e
  | f + 1, e =>
    match e with
    | .add ts => collectAddBody ((flattenAdd (.add ts)).map (CollectF f))
    | .mul fs => collectMulBodyF f ((flattenMul (.mul fs)).map (CollectF f))
    | .pow b ex =>
      let base := CollectF f b
      let exp := CollectF f ex
      (match base with
       | .pow ib ie => NewPow ib (CollectF f (NewMul [ie, exp]))
       | base =>
         if isZero exp then .int 1
         else if isOne exp then base
         else NewPow base exp)
    | .int v => collectNumeric (.int v)
    | .float v => collectNumeric (.float v)
    | .rat n d => collectNumeric (.rat n d)
    | e => e

/-- Tail of `collectMul` after the flattened factors are recursively
collected: partition off the numeric product, collapse to `0` when it is
zero, combine powers of syntactically identical bases, and reassemble
with the numeric part first (omitted when 1, as are exponent-0 factors). -/
def collectMulBodyF : Nat → List Expr → Expr
  | 0, fs => .mul fs
  | f + 1, allFactors =>
    let p := partitionMulS (NewMul allFactors)
    if isZero p.1 then .int 0
    else
      let powers := collectPowersF f p.2
      let factors :=
        (if !isOne p.1 then [p.1] else []) ++
          powers.flatMap
            (fun q =>
              if isOne q.2.2 then [q.2.1]
              else if isZero q.2.2 then []
              else [NewPow q.2.1 q.2.2])
      match factors with
      | [] => .int 1
      | [t] => t
      | fs => NewMul fs

/-- The power-combination map of `collectPowers`, an association list
keyed by the base's rendered string in first-seen order: a `Pow` factor
contributes its exponent, any other factor exponent 1, and a repeated key
adds the exponents through `Collect`. -/
def collectPowersF : Nat → Expr → List (String × Expr × Expr)
  | 0, _ => []
  | f + 1, e =>
    match e with
    | .mul fs =>
      fs.foldl
        (fun acc term =>
          match term with
          | .pow b ex => powersUpsertF f acc (exprString b) b ex
          | t => powersUpsertF f acc (exprString t) t (.int 1))
        []
    | .pow b ex => [(exprString b, b, ex)]
    | e => if !isOne e then [(exprString e, e, .int 1)] else []

/-- Map update for `collectPowers`: an existing key keeps its slot, its
base is replaced by the current one and the exponents are added through
`Collect`; a new key is appended. -/
def powersUpsertF : Nat → List (String × Expr × Expr) → String → Expr → Expr → List (String × Expr × Expr)
  | 0, acc, _, _, _ => acc
  | f + 1, acc, key, b, ex =>
    if (acc.lookup key).isSome then
      acc.map (fun p => if p.1 = key then (key, b, CollectF f (NewAdd [p.2.2, ex])) else p)
    else acc ++ [(key, b, ex)]

end

/-- Tail of `factorAdd` in `pkg/simplify`: with fewer than two terms, or
no common factor (or a common factor of 1), the sum is unchanged;
otherwise the common factor is removed from each term and the result is
`commonFactor × (sum of remaining terms)`. -/
def factorAddBodyF (f : Nat) (terms : List Expr) : Expr :=
  if terms.length < 2 then .add terms
  else
    match findCommonFactor terms with
    | none => .add terms
    | some cf =>
      if !isOne cf then
        let factorizedTerms :=
          terms.map
            (fun term =>
              match term with
              | .mul fs => removeFactor fs cf
              | term =>
                if termsEqual term cf then NewInt 1
                else if containsFactor term cf then
                  CollectF f (NewMul [term, NewPow cf (NewInt (-1))])
                else term)
        NewMul [cf, NewAdd factorizedTerms]
      else .add terms

/-- The simplifier's `Factor`, fuelled: `factorAdd` on sums, `Collect` on
products (`factorMul`), identity elsewhere. -/
def FactorF : Nat → Expr → Expr
  | 0, e => e
  | f + 1, e =>
    match e with
    | .add ts => factorAddBodyF f ts
    | .mul fs => CollectF f (.mul fs)
    | e => e

/-- The binomial coefficient as computed by `binomialCoeff` in
`pkg/simplify`, with Go's truncated `int64` division (exact at every step
by the standard identity). -/
def binomialCoeff (n k : ℤ) : ℤ :=
  if k > n ∨ k < 0 then 0
  else if k = 0 ∨ k = n then 1
  else
    let k := if k > n - k then n - k else k
    (List.range k.toNat).foldl (fun r i => Int.tdiv (r * (n - (i : ℤ))) ((i : ℤ) + 1)) 1

mutual

/-- The simplifier's `Expand`, fuelled: products distribute over their
`Add` factors; a power of a sum with an `Int` exponent between 0 and 4
expands through `expandBinomial`; everything else is unchanged. -/
def ExpandSF : Nat → Expr → Expr
  | 0, e => e
  | f + 1, e =>
    match e with
    | .mul fs =>
      (match fs with
       | [] => .mul []
       | t0 :: rest => rest.foldl (fun acc t => distributiveMultiplyF f acc t) t0)
    | .pow b ex =>
      (match b, ex with
       | .add ts, .int n =>
         let v := goInt64 n
         if 0 ≤ v ∧ v ≤ 4 then expandBinomialF f ts v.toNat else .pow (.add ts) (.int n)
       | b, ex => .pow b ex)
    | e => e

/-- Pairwise distribution `distributiveMultiply`: an `Add` on either side
distributes, each product being expanded recursively; otherwise a plain
product is built. -/
def distributiveMultiplyF : Nat → Expr → Expr → Expr
  | 0, a, b => NewMul [a, b]
  | f + 1, a, b =>
    match a with
    | .add ts => NewAdd (ts.map (fun t => ExpandSF f (NewMul [t, b])))
    | a =>
      match b with
      | .add ts => NewAdd (ts.map (fun t => ExpandSF f (NewMul [a, t])))
      | b => NewMul [a, b]

/-- Bounded power expansion `expandBinomial`: exponent 0 gives 1 and 1 the
sum itself; a two-term sum expands by the binomial theorem, a longer one
by repeated distributive multiplication (the Go code casts each
intermediate product to `*ast.Add`, which it always is). -/
def expandBinomialF : Nat → List Expr → Nat → Expr
  | 0, ts, _ => .add ts
  | f + 1, ts, n =>
    if n = 0 then .int 1
    else if n = 1 then .add ts
    else
      match ts with
      | [a, b] =>
        NewAdd
          ((List.range (n + 1)).map
            (fun k =>
              NewMul
                [NewInt (binomialCoeff (n : ℤ) (k : ℤ)),
                 NewPow a (NewInt ((n : ℤ) - (k : ℤ))),
                 NewPow b (NewInt (k : ℤ))]))
      | ts => (List.range (n - 1)).foldl (fun res _ => distributiveMultiplyF f res (.add ts)) (.add ts)

end

/-- Fuel supplied by the top-level simplifier entry points; ample for
every input considered in this development. -/
def simplifyFuel : Nat := 1000

/-- Top-level `simplify.Collect` (default options). -/
def CollectGo (e : Expr) : Expr := CollectF simplifyFuel e

/-- Top-level `simplify.Factor` (default options). -/
def FactorGo (e : Expr) : Expr := FactorF simplifyFuel e

/-- Top-level `simplify.Expand` (default options). -/
def ExpandGoS (e : Expr) : Expr := ExpandSF simplifyFuel e

/-- The `simplify.Options` record: `Once`, `KeepNegative` (never read) and
`MaxIterations`. -/
structure Options where
  once : Bool
  keepNegative : Bool
  maxIterations : ℤ

/-- The `simplify.DefaultOptions`. -/
def DefaultOptions : Options := { once := false, keepNegative := false, maxIterations := 10 }

/-- One iteration of the `Simplify` driver loop: `Factor` then `Collect`,
rolling back to the factored form when collection changed nothing (up to
normalization), then — when the round as a whole changed nothing — one
`Expand` with a re-`Collect` if the expansion changed something. -/
def roundGo (c : Expr) : Expr :=
  let step1 := FactorGo c
  let step2 := CollectGo step1
  let step2 := if equalGo step1 step2 then step1 else step2
  if equalGo c step2 then
    let step3 := ExpandGoS step2
    if !equalGo step2 step3 then CollectGo step3 else step2
  else step2

/-- The `Simplify` driver loop: run rounds while the iteration counter is
below `MaxIterations`, returning a round's result as soon as it changes
nothing (up to normalization) or when a single pass was requested. -/
def simplifyLoop (once : Bool) : Nat → Expr → Expr
  | 0, c => c
  | n + 1, c =>
    let s := roundGo c
    if equalGo c s || once then s else simplifyLoop once n s

/-- Top-level `simplify.Simplify`. -/
def SimplifyGo (opts : Options) (e : Expr) : Expr :=
  simplifyLoop opts.once opts.maxIterations.toNat e

/-- The `expand.Options` record: `MaxDegree`, `ExpandLogs`, `ExpandTrig`. -/
structure ExpandOptions where
  maxDegree : ℤ
  expandLogs : Bool
  expandTrig : Bool

/-- The `expand.DefaultOptions`: degree cap 10, no log or trig expansion. -/
def DefaultExpandOptions : ExpandOptions := { maxDegree := 10, expandLogs := false, expandTrig := false }

/-- The term list of a `*ast.Add` argument (such parameters always
receive `Add` nodes in the Go code). -/
def addTermsOf : Expr → List Expr
  | .add ts => ts
  | e => [e]

/-- Type test for `*ast.Add`. -/
def isAddE : Expr → Bool
  | .add _ => true
  | _ => false

/-- Logarithm expansion `expandLogarithm` in `pkg/expand`:
`ln(x*y) → ln(x)+ln(y)` and `ln(x^y) → y*ln(x)`, else unchanged. -/
def expandLogarithm (fn : Expr) : Expr :=
  match fn with
  | .func name [arg] =>
    (match arg with
     | .mul fs => NewAdd (fs.map (fun fa => .func name [fa]))
     | .pow b ex => NewMul [ex, .func name [b]]
     | _ => fn)
  | fn => fn

/-- Trigonometric expansion `expandTangent`: `tan(x) → sin(x)*cos(x)^-1`. -/
def expandTangent (fn : Expr) : Expr :=
  match fn with
  | .func _ [arg] => NewMul [.func "sin" [arg], NewPow (.func "cos" [arg]) (NewInt (-1))]
  | fn => fn

/-- Trigonometric expansion `expandSecant`: `sec(x) → cos(x)^-1`. -/
def expandSecant (fn : Expr) : Expr :=
  match fn with
  | .func _ [arg] => NewPow (.func "cos" [arg]) (NewInt (-1))
  | fn => fn

/-- Trigonometric expansion `expandCosecant`: `csc(x) → sin(x)^-1`. -/
def expandCosecant (fn : Expr) : Expr :=
  match fn with
  | .func _ [arg] => NewPow (.func "sin" [arg]) (NewInt (-1))
  | fn => fn

/-- Trigonometric expansion `expandCotangent`: `cot(x) → cos(x)*sin(x)^-1`. -/
def expandCotangent (fn : Expr) : Expr :=
  match fn with
  | .func _ [arg] => NewMul [.func "cos" [arg], NewPow (.func "sin" [arg]) (NewInt (-1))]
  | fn => fn

/-- Tail of `expandFunc` in `pkg/expand` after the arguments are
expanded: apply the log/trig rules when the corresponding option is set. -/
def expandFuncBody (opts : ExpandOptions) (name : String) (expandedArgs : List Expr) : Expr :=
  let expandedFunc := Expr.func name expandedArgs
  if (name = "ln" ∨ name = "log") ∧ opts.expandLogs then expandLogarithm expandedFunc
  else if name = "tan" ∧ opts.expandTrig then expandTangent expandedFunc
  else if name = "sec" ∧ opts.expandTrig then expandSecant expandedFunc
  else if name = "csc" ∧ opts.expandTrig then expandCosecant expandedFunc
  else if name = "cot" ∧ opts.expandTrig then expandCotangent expandedFunc
  else expandedFunc

mutual

/-- The recursive expansion `expandExpr` of `pkg/expand`, fuelled (the Go
recursion on freshly built products is not structural; the fuel strictly
decreases on every call and the top-level entry supplies an ample
amount, returning the input unchanged on exhaustion). -/
def expandExprE : Nat → ExpandOptions → Expr → Expr
  | 0, _, e => e
  | f + 1, opts, e =>
    match e with
    | .add ts => NewAdd (ts.map (expandExprE f opts))
    | .mul fs => expandMulBodyE f opts fs
    | .pow b ex => expandPowBodyE f opts b ex
    | .func name args => expandFuncBody opts name (args.map (expandExprE f opts))
    | e => e

/-- The body of `expandMul` in `pkg/expand`: expand every factor, split
off the `Add` factors, and distribute over them (a product with no `Add`
factor is rebuilt, a single remaining factor returned bare). -/
def expandMulBodyE : Nat → ExpandOptions → List Expr → Expr
  | 0, _, fs => .mul fs
  | f + 1, opts, factors =>
    let expandedFactors := factors.map (expandExprE f opts)
    let addFactors := expandedFactors.filter (fun t => isAddE t)
    let otherFactors := expandedFactors.filter (fun t => !isAddE t)
    match addFactors with
    | [] =>
      (match otherFactors with
       | [t] => t
       | ts => NewMul ts)
    | addFactors => distributeMultiplicationE f opts addFactors otherFactors

/-- The body of `expandPow` in `pkg/expand`: expand base and exponent,
distribute a power of a product over its factors, and hand a power of a
sum with an `Int` exponent to `expandPolynomial`. -/
def expandPowBodyE : Nat → ExpandOptions → Expr → Expr → Expr
  | 0, _, b, ex => .pow b ex
  | f + 1, opts, b, ex =>
    let base := expandExprE f opts b
    let exp := expandExprE f opts ex
    match base with
    | .mul fs => expandExprE f opts (NewMul (fs.map (fun fa => NewPow fa exp)))
    | .add ts =>
      (match exp with
       | .int n => expandPolynomialE f opts ts n
       | exp => NewPow (.add ts) exp)
    | base => NewPow base exp

/-- Distribution `distributeMultiplication` in `pkg/expand`: the term
sets of the `Add` factors are multiplied pairwise left to right, then
each resulting term is multiplied by the product of the remaining
factors and expanded. -/
def distributeMultiplicationE : Nat → ExpandOptions → List Expr → List Expr → Expr
  | 0, _, adds, others => NewMul (adds ++ others)
  | f + 1, opts, addFactors, otherFactors =>
    match addFactors with
    | [] => NewMul otherFactors
    | a0 :: rest =>
      let result := rest.foldl (fun acc a => multiplyTermSetsE f opts acc (addTermsOf a)) (addTermsOf a0)
      let result :=
        if !otherFactors.isEmpty then
          result.map (fun t => expandExprE f opts (NewMul [t, NewMul otherFactors]))
        else result
      NewAdd result

/-- Pairwise term multiplication `multiplyTermSets`: every term of the
first set times every term of the second, each product expanded. -/
def multiplyTermSetsE : Nat → ExpandOptions → List Expr → List Expr → List Expr
  | 0, _, s1, _ => s1
  | f + 1, opts, set1, set2 =>
    set1.flatMap (fun t1 => set2.map (fun t2 => expandExprE f opts (NewMul [t1, t2])))

/-- The bounded power expansion `expandPolynomial` of `pkg/expand`: the
`Int` exponent is read through `Int64`; a negative value or one above
`MaxDegree` leaves the power unexpanded, 0 gives 1, 1 the sum itself,
values up to 4 expand by repeated multiplication — and values above 4
fall back to the unexpanded power ("For larger exponents, we could
implement binomial expansion.  For now, fall back to the original
expression"). -/
def expandPolynomialE : Nat → ExpandOptions → List Expr → ℤ → Expr
  | 0, _, ts, n => .pow (.add ts) (.int n)
  | f + 1, opts, ts, n =>
    let e := goInt64 n
    if e < 0 ∨ e > opts.maxDegree then NewPow (.add ts) (.int n)
    else if e = 0 then .int 1
    else if e = 1 then .add ts
    else if e ≤ 4 then expandByRepeatedMultiplicationE f opts ts e.toNat
    else NewPow (.add ts) (.int n)

/-- Expansion of a power of a sum by repeated multiplication
(`expandByRepeatedMultiplication`; the Go code casts each intermediate
product to `*ast.Add`, which it always is). -/
def expandByRepeatedMultiplicationE : Nat → ExpandOptions → List Expr → Nat → Expr
  | 0, _, ts, _ => .add ts
  | f + 1, opts, ts, n =>
    (List.range (n - 1)).foldl (fun res _ => expandExprE f opts (NewMul [res, .add ts])) (.add ts)

end

/-- Top-level `expand.Expand` with the given options. -/
def ExpandGoE (opts : ExpandOptions) (e : Expr) : Expr := expandExprE simplifyFuel opts e

/-- The dispatch table lookup `getFunctionDerivative` in `pkg/calculus`:
the derivative form of each supported elementary function applied to the
(undifferentiated) argument; an unlisted name is an error. -/
def getFunctionDerivative (funcName : String) (arg : Expr) : Except String Expr :=
  if funcName = "sin" then .ok (.func "cos" [arg])
  else if funcName = "cos" then .ok (NewMul [NewInt (-1), .func "sin" [arg]])
  else if funcName = "tan" then .ok (NewPow (NewPow (.func "cos" [arg]) (NewInt 2)) (NewInt (-1)))
  else if funcName = "sec" then .ok (NewMul [.func "sec" [arg], .func "tan" [arg]])
  else if funcName = "csc" then .ok (NewMul [NewInt (-1), .func "csc" [arg], .func "cot" [arg]])
  else if funcName = "cot" then .ok (NewMul [NewInt (-1), NewPow (.func "csc" [arg]) (NewInt 2)])
  else if funcName = "arcsin" then
    .ok (NewPow (.func "sqrt" [NewAdd [NewInt 1, NewMul [NewInt (-1), NewPow arg (NewInt 2)]]]) (NewInt (-1)))
  else if funcName = "arccos" then
    .ok (NewMul [NewInt (-1), NewPow (.func "sqrt" [NewAdd [NewInt 1, NewMul [NewInt (-1), NewPow arg (NewInt 2)]]]) (NewInt (-1))])
  else if funcName = "arctan" then
    .ok (NewPow (NewAdd [NewInt 1, NewPow arg (NewInt 2)]) (NewInt (-1)))
  else if funcName = "sinh" then .ok (.func "cosh" [arg])
  else if funcName = "cosh" then .ok (.func "sinh" [arg])
  else if funcName = "tanh" then .ok (NewPow (NewPow (.func "cosh" [arg]) (NewInt 2)) (NewInt (-1)))
  else if funcName = "ln" then .ok (NewPow arg (NewInt (-1)))
  else if funcName = "log" then .ok (NewPow (NewMul [arg, .func "ln" [NewInt 10]]) (NewInt (-1)))
  else if funcName = "exp" then .ok (.func "exp" [arg])
  else if funcName = "sqrt" then
    .ok (NewMul [NewRational 1 2, NewPow arg (NewMul [NewInt (-1), NewRational 1 2])])
  else if funcName = "abs" then
    .ok (NewMul [arg, NewPow (.func "abs" [arg]) (NewInt (-1))])
  else .error ("derivative of function " ++ funcName ++ " not implemented")

/-- Whether an expression's free variables include the target variable
(`containsVariable` in `pkg/calculus`). -/
def containsVariable (e : Expr) (v : String) : Bool := (variablesOf e).contains v

/-- Replacement of the `i`-th element, for the generalized product rule. -/
def replaceAt : List Expr → Nat → Expr → List Expr
  | [], _, _ => []
  | _ :: ts, 0, x => x :: ts
  | t :: ts, i + 1, x => t :: replaceAt ts i x

mutual

/-- The differentiation rules `differentiate` of `pkg/calculus`: constants
to 0, the target variable to 1 and other variables to 0, linearity on
`Add`, the binary and generalized product rules on `Mul`, the power /
exponential / general rules on `Pow` (chosen by which side contains the
target variable), and the chain rule on single-argument `Func` nodes; a
multi-argument function and any unlisted function name fail.  Every
intermediate result is passed through `simplify.Collect`. -/
def differentiate : Expr → String → Except String Expr
  | .int _, _ => .ok (NewInt 0)
  | .float _, _ => .ok (NewInt 0)
  | .rat _ _, _ => .ok (NewInt 0)
  | .const _ _, _ => .ok (NewInt 0)
  | .var n, v => if n = v then .ok (NewInt 1) else .ok (NewInt 0)
  | .add ts, v =>
    (match derivList ts v with
     | .error e => .error e
     | .ok ds => .ok (CollectGo (NewAdd ds)))
  | .mul fs, v =>
    (match fs with
     | [] => .ok (NewInt 0)
     | [f0] => differentiate f0 v
     | [f0, g0] =>
       (match differentiate f0 v with
        | .error e => .error e
        | .ok fp =>
          match differentiate g0 v with
          | .error e => .error e
          | .ok gp => .ok (CollectGo (NewAdd [NewMul [fp, g0], NewMul [f0, gp]])))
     | fs =>
       (match derivList fs v with
        | .error e => .error e
        | .ok ds =>
          let terms := (List.range fs.length).map (fun i => NewMul (replaceAt fs i (ds.getD i (NewInt 0))))
          .ok (CollectGo (NewAdd terms))))
  | .pow b ex, v =>
    if !containsVariable ex v then
      match differentiate b v with
      | .error e => .error e
      | .ok bp => .ok (CollectGo (NewMul [ex, NewPow b (NewAdd [ex, NewInt (-1)]), bp]))
    else if !containsVariable b v then
      match differentiate ex v with
      | .error e => .error e
      | .ok ep => .ok (CollectGo (NewMul [.pow b ex, .func "ln" [b], ep]))
    else
      match differentiate b v with
      | .error e => .error e
      | .ok bp =>
        match differentiate ex v with
        | .error e => .error e
        | .ok ep =>
          .ok (CollectGo (NewMul [.pow b ex,
            NewAdd [NewMul [ep, .func "ln" [b]], NewMul [ex, NewMul [bp, NewPow b (NewInt (-1))]]]]))
  | .func name args, v =>
    (match args with
     | [arg] =>
       (match differentiate arg v with
        | .error e => .error e
        | .ok argPrime =>
          match getFunctionDerivative name arg with
          | .error e => .error e
          | .ok outer => .ok (CollectGo (NewMul [outer, argPrime])))
     | _ => .error "differentiation of multi-argument functions not yet supported")
  | .eq _ _ _, _ => .error "cannot differentiate expression of type *ast.Eq"

/-- Ordered differentiation of a list of children, failing on the first
error. -/
def derivList : List Expr → String → Except String (List Expr)
  | [], _ => .ok []
  | t :: ts, v =>
    match differentiate t v with
    | .error e => .error e
    | .ok d =>
      match derivList ts v with
      | .error e => .error e
      | .ok ds => .ok (d :: ds)

end

/-- Top-level `calculus.Derivative`. -/
def Derivative (e : Expr) (v : String) : Except String Expr := differentiate e v

/-- The iteration loop of `NthDerivative`: differentiate `n` times,
returning the first error without a result. -/
def nthLoop (v : String) : Nat → Expr → Except String Expr
  | 0, c => .ok c
  | k + 1, c =>
    match differentiate c v with
    | .error e => .error e
    | .ok d => nthLoop v k d

/-- `calculus.NthDerivative`: a negative order is an input-validation
error, order 0 returns the input unchanged, and a positive order repeats
single differentiation. -/
def NthDerivative (e : Expr) (v : String) (n : ℤ) : Except String Expr :=
  if n < 0 then .error "derivative order must be non-negative"
  else if n = 0 then .ok e
  else nthLoop v n.toNat e

/-- The gcd of a coefficient list as the first pass of `(*Add).Factor`
folds it: `gcd` of the accumulator and each absolute value in turn,
starting from 0 (so the first step yields the first absolute value). -/
def listGcdAux (g : ℤ) (cs : List ℤ) : ℤ := cs.foldl (fun g c => goGCD g |c|) g

/- ------------------------------------------------------------------ -/
/- Auxiliary lemmas                                                    -/
/- ------------------------------------------------------------------ -/

theorem listGcdAux_nonneg (cs : List ℤ) : ∀ g : ℤ, 0 ≤ g → 0 ≤ listGcdAux g cs := by
  induction cs with
  | nil => intro g hg; simpa [listGcdAux] using hg
  | cons c cs ih =>
    intro g hg
    simpa [listGcdAux] using ih (goGCD g |c|) (by simp [goGCD])

theorem listGcdAux_dvd_init (cs : List ℤ) : ∀ g : ℤ, listGcdAux g cs ∣ g := by
  induction cs with
  | nil => intro g; simp [listGcdAux]
  | cons c cs ih =>
    intro g
    have h1 : listGcdAux (goGCD g |c|) cs ∣ goGCD g |c| := ih _
    have h2 : goGCD g |c| ∣ g := Int.gcd_dvd_left
    exact dvd_trans (by simpa [listGcdAux] using h1) h2

theorem listGcdAux_dvd_mem (cs : List ℤ) : ∀ g c : ℤ, c ∈ cs → listGcdAux g cs ∣ c := by
  induction cs with
  | nil => intro g c hc; cases hc
  | cons c0 cs ih =>
    intro g c hc
    rcases List.mem_cons.mp hc with rfl | hc
    · have h1 : listGcdAux (goGCD g |c|) cs ∣ goGCD g |c| := listGcdAux_dvd_init cs _
      have h2 : goGCD g |c| ∣ |c| := Int.gcd_dvd_right
      have h3 : (|c| : ℤ) ∣ c := (abs_dvd c c).mpr dvd_rfl
      simpa [listGcdAux] using dvd_trans (dvd_trans (by simpa [listGcdAux] using h1) h2) h3
    · simpa [listGcdAux] using ih (goGCD g |c0|) c hc

/- ------------------------------------------------------------------ -/
/- Claim theorems                                                      -/
/- ------------------------------------------------------------------ -/

/-- C1: the claim that `Simplify` and `Collect` never change an
expression's value — and in particular that `Collect` of a `Rational`
whose reduced denominator is 1, such as 4/2, denotes the same value as
the input — is contradicted by the code: `collectNumeric` computes the
reduced numerator but discards it, returning the zero value `&ast.Int{}`
(a nil `big.Int`, modelled as the integer 0).  `Collect` and `Simplify`
of the rational 4/2 (value 2) both yield a node of value 0; the already
reduced rational 4/1 shows the same loss. -/
theorem collectNumeric_reduced_rational_loses_value :
    CollectGo (NewRationalPreserved 4 2) = Expr.int 0
    ∧ SimplifyGo DefaultOptions (NewRationalPreserved 4 2) = Expr.int 0
    ∧ CollectGo (NewRational 4 1) = Expr.int 0
    ∧ evalExpr (NewRationalPreserved 4 2) [] = some ⟨4, 2⟩
    ∧ GoFloat.beq ⟨4, 2⟩ (GoFloat.ofInt 2) = true
    ∧ evalExpr (NewRational 4 1) [] = some (GoFloat.ofInt 4)
    ∧ evalExpr (Expr.int 0) [] = some (GoFloat.ofInt 0)
    ∧ GoFloat.beq ⟨4, 2⟩ (GoFloat.ofInt 0) = false :=
  ⟨rfl, rfl, rfl, rfl, by decide, rfl, rfl, by decide⟩

/-- C6 (counterexample): `Collect` of the product with exactly the two
`Int` factors −1 and 0 collapses it to the integer 0 — it is not
preserved as `-1*0`; the preservation exception claimed for collection
is absent from `collectMul`. -/
theorem collectMul_neg_one_zero_collapses :
    CollectGo (NewMul [Expr.int (-1), Expr.int 0]) = Expr.int 0
    ∧ Expr.int 0 ≠ Expr.mul [Expr.int (-1), Expr.int 0] :=
  ⟨rfl, by intro h; cases h⟩

/-- C7 (counterexample): `String()` of `Add` inserts a `+` before a term
whose own rendering starts with `-`: the sum of `x` and `-1` renders
`"x+-1"`, not `"x-1"` as the claim requires. -/
theorem addString_inserts_plus_before_minus :
    exprString (Expr.add [Expr.var "x", Expr.int (-1)]) = "x+-1"
    ∧ "x+-1" ≠ "x-1" :=
  ⟨rfl, by decide⟩

/-- C3 (counterexample): with default options (`MaxDegree` 10), `Expand`
of `(x+1)^5` returns the power unexpanded although the exponent 5 is a
non-negative integer within the bound — `expandPolynomial` expands only
exponents up to 4. -/
theorem expandPolynomial_skips_five_through_maxDegree :
    ExpandGoE DefaultExpandOptions (Expr.pow (Expr.add [Expr.var "x", Expr.int 1]) (Expr.int 5))
        = Expr.pow (Expr.add [Expr.var "x", Expr.int 1]) (Expr.int 5)
    ∧ (0 : ℤ) ≤ 5 ∧ (5 : ℤ) ≤ DefaultExpandOptions.maxDegree :=
  ⟨rfl, by decide, by decide⟩

theorem intToString_neg_of_pos (b : ℤ) (hb : 0 < b) : toString (-b) = "-" ++ toString b := by
  obtain ⟨k, rfl⟩ : ∃ k : ℕ, b = (k : ℤ) + 1 := ⟨(b - 1).toNat, by omega⟩
  rfl

theorem addTailStrings_eq (l : List Expr) :
    addTailStrings l = l.map (fun t => "+" ++ exprString t) := by
  induction l with
  | nil => rfl
  | cons t ts ih => simp [addTailStrings, ih]

theorem addTailLaTeX_eq (l : List Expr) :
    addTailLaTeX l = l.map (fun t =>
      if (exprLaTeX t).startsWith "-" then exprLaTeX t else "+" ++ exprLaTeX t) := by
  induction l with
  | nil => rfl
  | cons t ts ih => simp [addTailLaTeX, ih]

theorem NewMul_pair_not_special (a b : ℤ) (h : ¬(a = -1 ∧ 0 < b)) :
    NewMul [Expr.int a, Expr.int b] = Expr.mul [Expr.int a, Expr.int b] := by
  simp only [NewMul]
  rw [if_neg h]

theorem collectF_zero_pair (f : Nat) (a b : ℤ) (hab : a * b = 0) :
    CollectF (f + 2) (NewMul [Expr.int a, Expr.int b]) = Expr.int 0 := by
  have hns : ¬(a = -1 ∧ 0 < b) := by
    rintro ⟨rfl, hb⟩
    omega
  rw [NewMul_pair_not_special a b hns]
  show collectMulBodyF (f+1) ((flattenMul (.mul [Expr.int a, Expr.int b])).map (CollectF (f+1))) = Expr.int 0
  have hflat : flattenMul (Expr.mul [Expr.int a, Expr.int b]) = [Expr.int a, Expr.int b] := rfl
  rw [hflat]
  have hca : CollectF (f+1) (Expr.int a) = Expr.int a := by
    show collectNumeric (Expr.int a) = Expr.int a
    rfl
  have hcb : CollectF (f+1) (Expr.int b) = Expr.int b := by
    show collectNumeric (Expr.int b) = Expr.int b
    rfl
  rw [List.map_cons, List.map_cons, List.map_nil, hca, hcb]
  show (if isZero (partitionMulS (NewMul [Expr.int a, Expr.int b])).1 then Expr.int 0
    else (match
      (if !isOne (partitionMulS (NewMul [Expr.int a, Expr.int b])).1
        then [(partitionMulS (NewMul [Expr.int a, Expr.int b])).1] else []) ++
        (collectPowersF f (partitionMulS (NewMul [Expr.int a, Expr.int b])).2).flatMap
          (fun q =>
            if isOne q.2.2 then [q.2.1]
            else if isZero q.2.2 then []
            else [NewPow q.2.1 q.2.2]) with
      | [] => Expr.int 1
      | [t] => t
      | fs => NewMul fs)) = Expr.int 0
  rw [NewMul_pair_not_special a b hns]
  have hpart : partitionMulS (Expr.mul [Expr.int a, Expr.int b]) =
      (Expr.float ⟨a * b, 1 * 1⟩, Expr.int 1) := by
    simp [partitionMulS, mulTerms, isNumericE, numericValue, GoFloat.ofInt, GoFloat.mul, NewInt]
  rw [hpart]
  simp [isZero, numericValue, GoFloat.sign, hab]

/-- C10 (counterexample): the original claim — that `NewMul` of `-1` and a
positive `Int` `b` always yields the one-factor product of exactly `-b` —
fails at `b = 2^63`: the Go collapse reads the second factor through the
saturating `big.Float.Int64` conversion, so the stored factor is
`-(2^63 - 1)`, not `-2^63`. -/
theorem NewMul_collapse_saturates :
    NewMul [Expr.int (-1), Expr.int (2 ^ 63)] = Expr.mul [Expr.int (-(2 ^ 63 - 1))]
    ∧ Expr.mul [Expr.int (-(2 ^ 63 - 1))] ≠ Expr.mul [Expr.int (-(2 ^ 63))] := by
  constructor
  · show (if (-1 : ℤ) = -1 ∧ (0 : ℤ) < 2 ^ 63 then
        Expr.mul [Expr.int (-(goInt64 (2 ^ 63)))]
      else Expr.mul [Expr.int (-1), Expr.int (2 ^ 63)]) = Expr.mul [Expr.int (-(2 ^ 63 - 1))]
    rw [if_pos (by constructor <;> decide)]
    have : goInt64 (2 ^ 63) = 2 ^ 63 - 1 := by decide
    rw [this]
  · intro h
    have h2 := congrArg (fun e => match e with | Expr.mul [Expr.int v] => v | _ => 0) h
    exact absurd h2 (by decide)

/-- C10 (amended): for an argument list of exactly two `Int` factors whose
first is `-1` and whose second is a positive `b`, `NewMul` returns the
one-factor product of the negation of `b`'s saturating `int64`
conversion — which is exactly `-b`, rendering as the bare negated
numeral, whenever `b < 2^63`, and `-(2^63 - 1)` for larger `b`; for every
other argument list the factors are stored exactly as given, in order. -/
theorem NewMul_minus_one_collapse_saturating :
    (∀ b : ℤ, 0 < b →
        NewMul [Expr.int (-1), Expr.int b] = Expr.mul [Expr.int (-(goInt64 b))]
        ∧ (b < 2 ^ 63 →
            NewMul [Expr.int (-1), Expr.int b] = Expr.mul [Expr.int (-b)]
            ∧ exprString (Expr.mul [Expr.int (-b)]) = "-" ++ toString b))
    ∧ (∀ fs : List Expr, (¬ ∃ b : ℤ, 0 < b ∧ fs = [Expr.int (-1), Expr.int b]) →
        NewMul fs = Expr.mul fs) := by
  constructor
  · intro b hb
    constructor
    · simp [NewMul, hb]
    · intro hlt
      have hgo : goInt64 b = b := by
        unfold goInt64
        rw [if_neg (by omega), if_neg (by omega)]
      constructor
      · simp [NewMul, hb, hgo]
      · show toString (-b) = "-" ++ toString b
        exact intToString_neg_of_pos b hb
  · intro fs h
    simp only [NewMul]
    split
    · next a b =>
      split
      · next hcond => exact absurd ⟨b, hcond.2, by rw [hcond.1]⟩ h
      · rfl
    · rfl

/-- C10 (witness): `NewMul` of `-1` and `4` is the one-factor product of
`-(goInt64 4) = -4`, rendering `"-4"`, and swapping the arguments stores
them as given. -/
theorem NewMul_minus_one_collapse_saturating_witness :
    (NewMul [Expr.int (-1), Expr.int 4] = Expr.mul [Expr.int (-(goInt64 4))]
      ∧ (NewMul [Expr.int (-1), Expr.int 4] = Expr.mul [Expr.int (-4)]
          ∧ exprString (Expr.mul [Expr.int (-4)]) = "-" ++ toString (4 : ℤ)))
    ∧ NewMul [Expr.int 4, Expr.int (-1)] = Expr.mul [Expr.int 4, Expr.int (-1)] :=
  ⟨⟨(NewMul_minus_one_collapse_saturating.1 4 (by decide)).1,
    (NewMul_minus_one_collapse_saturating.1 4 (by decide)).2 (by decide)⟩,
   NewMul_minus_one_collapse_saturating.2 [Expr.int 4, Expr.int (-1)]
     (by rintro ⟨b, hb, h⟩; cases h)⟩

/-- C7 (amended): in `String()` of an `Add` with at least two terms the
first term renders bare and every subsequent term is prefixed with `+`
unconditionally, even when its own rendering starts with `-`; the
starts-with-`-` exception applies in `LaTeX()` only. -/
theorem addString_always_plus (t0 r0 : Expr) (rest : List Expr) :
    exprString (Expr.add (t0 :: r0 :: rest)) =
      exprString t0 ++ String.join ((r0 :: rest).map (fun t => "+" ++ exprString t))
    ∧ exprLaTeX (Expr.add (t0 :: r0 :: rest)) =
      exprLaTeX t0 ++ String.join ((r0 :: rest).map (fun t =>
        if (exprLaTeX t).startsWith "-" then exprLaTeX t else "+" ++ exprLaTeX t)) := by
  constructor
  · rw [show exprString (Expr.add (t0 :: r0 :: rest)) =
        exprString t0 ++ String.join (addTailStrings (r0 :: rest)) from rfl]
    rw [addTailStrings_eq]
  · rw [show exprLaTeX (Expr.add (t0 :: r0 :: rest)) =
        exprLaTeX t0 ++ String.join (addTailLaTeX (r0 :: rest)) from rfl]
    rw [addTailLaTeX_eq]

/-- C6 (amended): in the simplifier's `Collect`, a product of two `Int`
factors multiplying to zero always collapses to the integer 0 — there is
no `-1*0` exception in `collectMul`; the preservation of `-1*0` is
implemented in the `Expr` model's own `(*Mul).Simplify` method, which
collapses other zero products (such as `3*0`) to 0. -/
theorem collect_zero_product_and_mulSimplify_exception :
    (∀ a b : ℤ, a * b = 0 → CollectGo (NewMul [Expr.int a, Expr.int b]) = Expr.int 0)
    ∧ exprSimplify (Expr.mul [Expr.int (-1), Expr.int 0]) = Expr.mul [Expr.int (-1), Expr.int 0]
    ∧ exprSimplify (Expr.mul [Expr.int 3, Expr.int 0]) = Expr.int 0 := by
  refine ⟨?_, rfl, rfl⟩
  intro a b hab
  exact collectF_zero_pair 998 a b hab

/-- C6 (witness): `Collect` collapses `0*5` to the integer 0. -/
theorem collect_zero_product_witness :
    CollectGo (NewMul [Expr.int 0, Expr.int 5]) = Expr.int 0 :=
  collect_zero_product_and_mulSimplify_exception.1 0 5 (by decide)

/-- C5: the reducing constructor `NewRational` produces, for every
numerator and nonzero denominator, a `Rational` node whose components
are coprime and whose denominator is positive. -/
theorem NewRational_invariant (num den : ℤ) (h : den ≠ 0) :
    NewRational num den = Expr.rat (reduceRat num den).1 (reduceRat num den).2
    ∧ Int.gcd (reduceRat num den).1 (reduceRat num den).2 = 1
    ∧ 0 < (reduceRat num den).2 := by
  refine ⟨rfl, ?_⟩
  set g : ℤ := (Int.gcd num den : ℤ) with hgdef
  have hgpos : 0 < Int.gcd num den := Int.gcd_pos_of_ne_zero_right num h
  have hgz : g ≠ 0 := by positivity
  obtain ⟨a, ha⟩ : g ∣ num := Int.gcd_dvd_left
  obtain ⟨b, hb⟩ : g ∣ den := Int.gcd_dvd_right
  have hga : goDiv num g = a := by
    have h1 : Int.ediv (g * a) g = a := Int.mul_ediv_cancel_left a hgz
    rw [goDiv, ha, h1]
  have hgb : goDiv den g = b := by
    have h1 : Int.ediv (g * b) g = b := Int.mul_ediv_cancel_left b hgz
    rw [goDiv, hb, h1]
  have hbne : b ≠ 0 := by
    rintro rfl
    rw [mul_zero] at hb
    exact h hb
  have hab : Int.gcd a b = 1 := by
    have hmul : Int.gcd num den = g.natAbs * Int.gcd a b := by
      rw [ha, hb]
      exact Int.gcd_mul_left g a b
    have hgabs : g.natAbs = Int.gcd num den := by
      rw [hgdef]
      exact Int.natAbs_ofNat _
    rw [hgabs] at hmul
    exact Nat.eq_of_mul_eq_mul_left hgpos (by rw [Nat.mul_one]; exact hmul.symm)
  have hred : reduceRat num den = if b < 0 then (-a, -b) else (a, b) := by
    rw [reduceRat, goGCD, ← hgdef, hga, hgb]
  rw [hred]
  by_cases hbneg : b < 0
  · rw [if_pos hbneg]
    refine ⟨?_, by simpa using by omega⟩
    rw [Int.neg_gcd, Int.gcd_neg]
    exact hab
  · rw [if_neg hbneg]
    exact ⟨hab, by simpa using by omega⟩

/-- C5 (witness): `NewRational 4 (-6)` reduces to `-2/3`: coprime and a
positive denominator. -/
theorem NewRational_invariant_witness :
    NewRational 4 (-6) = Expr.rat (reduceRat 4 (-6)).1 (reduceRat 4 (-6)).2
    ∧ Int.gcd (reduceRat 4 (-6)).1 (reduceRat 4 (-6)).2 = 1
    ∧ 0 < (reduceRat 4 (-6)).2 :=
  NewRational_invariant 4 (-6) (by decide)

/-- C3 (amended): `expandPolynomial` expands a power of a sum only for
integer exponents from 0 up to 4 that also lie within `MaxDegree` —
0 giving 1, 1 the sum itself, 2..4 repeated multiplication — and leaves
the power unexpanded when the exponent exceeds 4 (even when it is within
`MaxDegree`, default 10), exceeds `MaxDegree`, or is negative (a
non-`Int` exponent never reaches it, see `expandPowBodyE`).  The
simplifier's own `expandPow` has the same hard cap of 4 independent of
any option, and uses the binomial theorem for a two-term sum; in
`pkg/expand` the binomial branch is unimplemented.  The concrete
conjuncts show `(x+1)^2` expanding by pairwise distribution and
evaluating to 36 at `x = 5`, and the binomial shape for an arbitrary
two-term sum squared. -/
theorem expandPolynomial_bounds (f : Nat) (opts : ExpandOptions) (ts : List Expr) (n : ℤ) :
    (goInt64 n < 0 ∨ opts.maxDegree < goInt64 n →
        expandPolynomialE (f + 1) opts ts n = Expr.pow (Expr.add ts) (Expr.int n))
    ∧ (4 < goInt64 n → goInt64 n ≤ opts.maxDegree →
        expandPolynomialE (f + 1) opts ts n = Expr.pow (Expr.add ts) (Expr.int n))
    ∧ (goInt64 n = 0 → 0 ≤ opts.maxDegree → expandPolynomialE (f + 1) opts ts n = Expr.int 1)
    ∧ (goInt64 n = 1 → 1 ≤ opts.maxDegree → expandPolynomialE (f + 1) opts ts n = Expr.add ts)
    ∧ (2 ≤ goInt64 n → goInt64 n ≤ 4 → goInt64 n ≤ opts.maxDegree →
        expandPolynomialE (f + 1) opts ts n =
          expandByRepeatedMultiplicationE f opts ts (goInt64 n).toNat)
    ∧ (∀ m : ℤ, 4 < goInt64 m →
        ExpandSF (f + 1) (Expr.pow (Expr.add ts) (Expr.int m)) = Expr.pow (Expr.add ts) (Expr.int m))
    ∧ (∀ a b : Expr, ExpandGoS (Expr.pow (Expr.add [a, b]) (Expr.int 2)) =
        Expr.add [Expr.mul [Expr.int 1, Expr.pow a (Expr.int 2), Expr.pow b (Expr.int 0)],
                  Expr.mul [Expr.int 2, Expr.pow a (Expr.int 1), Expr.pow b (Expr.int 1)],
                  Expr.mul [Expr.int 1, Expr.pow a (Expr.int 0), Expr.pow b (Expr.int 2)]])
    ∧ ExpandGoE DefaultExpandOptions (Expr.pow (Expr.add [Expr.var "x", Expr.int 1]) (Expr.int 2))
        = Expr.add [Expr.mul [Expr.var "x", Expr.var "x"], Expr.mul [Expr.var "x", Expr.int 1],
                    Expr.mul [Expr.int 1, Expr.var "x"], Expr.mul [Expr.int 1, Expr.int 1]]
    ∧ evalExpr (Expr.add [Expr.mul [Expr.var "x", Expr.var "x"], Expr.mul [Expr.var "x", Expr.int 1],
                  Expr.mul [Expr.int 1, Expr.var "x"], Expr.mul [Expr.int 1, Expr.int 1]])
        [("x", ⟨5, 1⟩)] = some ⟨36, 1⟩ := by
  refine ⟨?_, ?_, ?_, ?_, ?_, ?_, fun a b => rfl, rfl, rfl⟩
  · intro h
    simp only [expandPolynomialE]
    rw [if_pos (by omega : goInt64 n < 0 ∨ goInt64 n > opts.maxDegree)]
    rfl
  · intro h4 hmax
    simp only [expandPolynomialE]
    rw [if_neg (by omega : ¬(goInt64 n < 0 ∨ goInt64 n > opts.maxDegree)),
        if_neg (by omega : ¬(goInt64 n = 0)), if_neg (by omega : ¬(goInt64 n = 1)),
        if_neg (by omega : ¬(goInt64 n ≤ 4))]
    rfl
  · intro h0 hmax
    simp only [expandPolynomialE]
    rw [if_neg (by omega : ¬(goInt64 n < 0 ∨ goInt64 n > opts.maxDegree)), if_pos h0]
  · intro h1 hmax
    simp only [expandPolynomialE]
    rw [if_neg (by omega : ¬(goInt64 n < 0 ∨ goInt64 n > opts.maxDegree)),
        if_neg (by omega : ¬(goInt64 n = 0)), if_pos h1]
  · intro h2 h4 hmax
    simp only [expandPolynomialE]
    rw [if_neg (by omega : ¬(goInt64 n < 0 ∨ goInt64 n > opts.maxDegree)),
        if_neg (by omega : ¬(goInt64 n = 0)), if_neg (by omega : ¬(goInt64 n = 1)),
        if_pos h4]
  · intro m hm
    simp only [ExpandSF]
    rw [if_neg (by omega : ¬(0 ≤ goInt64 m ∧ goInt64 m ≤ 4))]

/-- C3 (witness): at exponent 7 within the default degree cap the power
of `x+1` stays unexpanded; at exponent 0 it becomes 1. -/
theorem expandPolynomial_bounds_witness :
    expandPolynomialE (999 + 1) DefaultExpandOptions [Expr.var "x", Expr.int 1] 7
        = Expr.pow (Expr.add [Expr.var "x", Expr.int 1]) (Expr.int 7)
    ∧ expandPolynomialE (999 + 1) DefaultExpandOptions [Expr.var "x", Expr.int 1] 0 = Expr.int 1 :=
  ⟨(expandPolynomial_bounds 999 DefaultExpandOptions [Expr.var "x", Expr.int 1] 7).2.1
      (by decide) (by decide),
   (expandPolynomial_bounds 999 DefaultExpandOptions [Expr.var "x", Expr.int 1] 0).2.2.1
      (by decide) (by decide)⟩

theorem nthLoop_succ (v : String) :
    ∀ (k : Nat) (c : Expr), nthLoop v (k + 1) c = (nthLoop v k c).bind (fun d => differentiate d v) := by
  intro k
  induction k with
  | zero =>
    intro c
    show (match differentiate c v with
      | .error e => (.error e : Except String Expr)
      | .ok d => nthLoop v 0 d) = (Except.ok c).bind (fun d => differentiate d v)
    rw [show (Except.ok c).bind (fun d => differentiate d v) = differentiate c v from rfl]
    cases differentiate c v <;> rfl
  | succ k ih =>
    intro c
    show (match differentiate c v with
      | .error e => (.error e : Except String Expr)
      | .ok d => nthLoop v (k + 1) d) =
      ((match differentiate c v with
        | .error e => (.error e : Except String Expr)
        | .ok d => nthLoop v k d)).bind (fun d => differentiate d v)
    cases differentiate c v with
    | error e => rfl
    | ok d => exact ih d

theorem nthLoop_foldlM (v : String) :
    ∀ (k : Nat) (c : Expr), nthLoop v k c = (List.range k).foldlM (fun c _ => differentiate c v) c := by
  intro k
  induction k with
  | zero => intro c; rfl
  | succ k ih =>
    intro c
    rw [nthLoop_succ, ih, List.range_succ, List.foldlM_append]
    simp
    rfl

/-- C9: `NthDerivative` returns the order-validation error for every
negative order, returns the input expression unchanged for order 0, and
for a positive order `n` is the `n`-fold monadic (fail-fast) iteration
of single differentiation — in particular the first error encountered is
returned without a result. -/
theorem NthDerivative_spec (e : Expr) (v : String) (n : ℤ) :
    (n < 0 → NthDerivative e v n = .error "derivative order must be non-negative")
    ∧ (n = 0 → NthDerivative e v n = .ok e)
    ∧ (0 < n → NthDerivative e v n = (List.range n.toNat).foldlM (fun c _ => differentiate c v) e)
    ∧ (0 < n → ∀ err, differentiate e v = .error err → NthDerivative e v n = .error err) := by
  refine ⟨?_, ?_, ?_, ?_⟩
  · intro h
    rw [NthDerivative, if_pos h]
  · intro h
    rw [NthDerivative, if_neg (by omega), if_pos h]
  · intro h
    rw [NthDerivative, if_neg (by omega), if_neg (by omega)]
    exact nthLoop_foldlM v n.toNat e
  · intro h err herr
    rw [NthDerivative, if_neg (by omega), if_neg (by omega)]
    obtain ⟨k, hk⟩ : ∃ k : Nat, n.toNat = k + 1 := ⟨n.toNat - 1, by omega⟩
    rw [hk]
    show (match differentiate e v with
      | .error e => (.error e : Except String Expr)
      | .ok d => nthLoop v k d) = .error err
    rw [herr]

/-- C9 (witness): order −3 errors, order 0 returns the input, order 2 is
the two-fold iteration, and a multi-argument function's error is
returned directly. -/
theorem NthDerivative_spec_witness :
    NthDerivative (Expr.var "x") "x" (-3) = .error "derivative order must be non-negative"
    ∧ NthDerivative (Expr.var "x") "x" 0 = .ok (Expr.var "x")
    ∧ NthDerivative (Expr.pow (Expr.var "x") (Expr.int 3)) "x" 2
        = (List.range (2 : ℤ).toNat).foldlM (fun c _ => differentiate c "x")
            (Expr.pow (Expr.var "x") (Expr.int 3))
    ∧ NthDerivative (Expr.func "foo" [Expr.var "x", Expr.var "y"]) "x" 5
        = .error "differentiation of multi-argument functions not yet supported" :=
  ⟨(NthDerivative_spec _ _ _).1 (by decide),
   (NthDerivative_spec _ _ _).2.1 rfl,
   (NthDerivative_spec _ _ _).2.2.1 (by decide),
   (NthDerivative_spec _ _ _).2.2.2 (by decide) _ rfl⟩

theorem simplifyLoop_iterates (once : Bool) :
    ∀ (n : Nat) (e : Expr), ∃ m : Nat,
      m ≤ n
      ∧ simplifyLoop once n e = roundGo^[m] e
      ∧ (once = true → m = min 1 n)
      ∧ (0 < n → 0 < m)
      ∧ (∀ i, i + 1 < m → equalGo (roundGo^[i] e) (roundGo^[i + 1] e) = false)
      ∧ (m < n → once = true ∨ equalGo (roundGo^[m - 1] e) (roundGo^[m] e) = true) := by
  intro n
  induction n with
  | zero =>
    intro e
    refine ⟨0, le_refl 0, rfl, by simp, by omega, by omega, by omega⟩
  | succ n ih =>
    intro e
    have hunfold : simplifyLoop once (n + 1) e =
        (if equalGo e (roundGo e) || once then roundGo e else simplifyLoop once n (roundGo e)) := rfl
    by_cases hstop : (equalGo e (roundGo e) || once) = true
    · refine ⟨1, by omega, ?_, ?_, by omega, by omega, ?_⟩
      · rw [hunfold, if_pos hstop, Function.iterate_one]
      · intro _
        omega
      · intro _
        rcases Bool.or_eq_true_iff.mp hstop with heq | honce
        · right
          simpa [Function.iterate_one] using heq
        · left
          exact honce
    · have hstopf : (equalGo e (roundGo e) || once) = false := by
        cases h : (equalGo e (roundGo e) || once) with
        | false => rfl
        | true => exact absurd h hstop
      have heqf : equalGo e (roundGo e) = false := by
        cases h : equalGo e (roundGo e) with
        | false => rfl
        | true => rw [h] at hstopf; cases hstopf
      have honcef : once = false := by
        cases h : once with
        | false => rfl
        | true => rw [h] at hstopf; simp at hstopf
      obtain ⟨m', hle, heq, honce, hpos, hmin, hearly⟩ := ih (roundGo e)
      refine ⟨m' + 1, by omega, ?_, ?_, by omega, ?_, ?_⟩
      · rw [hunfold, if_neg (by simp [hstop]), heq, ← Function.iterate_succ_apply]
      · intro h1
        rw [honcef] at h1
        cases h1
      · intro i hi
        match i with
        | 0 =>
          simpa [Function.iterate_one] using heqf
        | Nat.succ j =>
          have hj : j + 1 < m' := by omega
          have := hmin j hj
          rw [← Function.iterate_succ_apply, ← Function.iterate_succ_apply] at this
          exact this
      · intro hlt
        have hm'lt : m' < n := by omega
        rcases hearly hm'lt with honce2 | heq2
        · exact Or.inl honce2
        · right
          have hm'pos : 0 < m' := hpos (by omega)
          have h1 : roundGo^[m' - 1] (roundGo e) = roundGo^[m' + 1 - 1] e := by
            rw [← Function.iterate_succ_apply]
            congr 1
            omega
          have h2 : roundGo^[m'] (roundGo e) = roundGo^[m' + 1] e := by
            rw [← Function.iterate_succ_apply]
          rw [h1, h2] at heq2
          exact heq2

/-- C8: for every expression and every options value, `Simplify`
terminates with the result of `m` rounds of the driver loop for some
`m` at most `MaxIterations` (each round being one `Factor`-then-`Collect`
with at most one `Expand`-and-re-`Collect`, see `roundGo`); every round
before the last changed the expression under normalized-string equality
(the loop stops as soon as a round produces no change), an early stop is
explained by an unchanged round or a requested single pass, and a single
pass runs exactly one round (when the cap allows any). -/
theorem SimplifyGo_bounded_rounds (opts : Options) (e : Expr) :
    ∃ m : Nat,
      m ≤ opts.maxIterations.toNat
      ∧ SimplifyGo opts e = roundGo^[m] e
      ∧ (opts.once = true → m = min 1 opts.maxIterations.toNat)
      ∧ (0 < opts.maxIterations.toNat → 0 < m)
      ∧ (∀ i, i + 1 < m → equalGo (roundGo^[i] e) (roundGo^[i + 1] e) = false)
      ∧ (m < opts.maxIterations.toNat →
          opts.once = true ∨ equalGo (roundGo^[m - 1] e) (roundGo^[m] e) = true) :=
  simplifyLoop_iterates opts.once opts.maxIterations.toNat e


/-- C8 (witness): the bound instantiated at the default options on a
bare variable. -/
theorem SimplifyGo_bounded_rounds_witness :
    ∃ m : Nat,
      m ≤ DefaultOptions.maxIterations.toNat
      ∧ SimplifyGo DefaultOptions (Expr.var "x") = roundGo^[m] (Expr.var "x")
      ∧ (DefaultOptions.once = true → m = min 1 DefaultOptions.maxIterations.toNat)
      ∧ (0 < DefaultOptions.maxIterations.toNat → 0 < m)
      ∧ (∀ i, i + 1 < m →
          equalGo (roundGo^[i] (Expr.var "x")) (roundGo^[i + 1] (Expr.var "x")) = false)
      ∧ (m < DefaultOptions.maxIterations.toNat →
          DefaultOptions.once = true
          ∨ equalGo (roundGo^[m - 1] (Expr.var "x")) (roundGo^[m] (Expr.var "x")) = true) :=
  SimplifyGo_bounded_rounds DefaultOptions (Expr.var "x")

theorem factorGcdLoop_abort : ∀ (ts : List Expr) (g : ℤ),
    (∃ t ∈ ts, termCoeff t = none) → factorGcdLoop g ts = none := by
  intro ts
  induction ts with
  | nil =>
    intro g h
    obtain ⟨t, ht, _⟩ := h
    cases ht
  | cons t0 ts ih =>
    intro g h
    obtain ⟨t, ht, htc⟩ := h
    rcases List.mem_cons.mp ht with rfl | hmem
    · simp [factorGcdLoop, htc]
    · simp only [factorGcdLoop]
      cases hc : termCoeff t0 with
      | none => rfl
      | some c =>
        by_cases h1 : goGCD g |c| = 1
        · simp [h1]
        · simp only [h1, if_neg (by simpa using h1)]
          exact ih _ ⟨t, hmem, htc⟩

theorem factorGcdLoop_success : ∀ (ts : List Expr) (cs : List ℤ) (g : ℤ),
    0 ≤ g → ts.map termCoeff = cs.map some → listGcdAux g cs ≠ 1 →
    factorGcdLoop g ts = some (listGcdAux g cs) := by
  intro ts
  induction ts with
  | nil =>
    intro cs g hg hmap hne
    cases cs with
    | nil => simp [factorGcdLoop, listGcdAux]
    | cons c cs => cases hmap
  | cons t0 ts ih =>
    intro cs g hg hmap hne
    cases cs with
    | nil => cases hmap
    | cons c cs =>
      rw [List.map_cons, List.map_cons] at hmap
      have hc0 : termCoeff t0 = some c := (List.cons.injEq _ _ _ _).mp hmap |>.1
      have hrest : ts.map termCoeff = cs.map some := (List.cons.injEq _ _ _ _).mp hmap |>.2
      have hlist : listGcdAux g (c :: cs) = listGcdAux (goGCD g |c|) cs := by
        simp [listGcdAux]
      rw [hlist] at hne ⊢
      have hg2 : goGCD g |c| ≠ 1 := by
        intro h1
        apply hne
        have hdvd : listGcdAux (goGCD g |c|) cs ∣ goGCD g |c| := listGcdAux_dvd_init cs _
        have hnn : 0 ≤ listGcdAux (goGCD g |c|) cs := listGcdAux_nonneg cs _ (by simp [goGCD])
        have hdvd1 : listGcdAux (goGCD g |c|) cs ∣ 1 := by
          conv_rhs => rw [← h1]
          exact hdvd
        exact Int.eq_one_of_dvd_one hnn hdvd1
      simp only [factorGcdLoop, hc0]
      rw [if_neg hg2]
      exact ih cs (goGCD g |c|) (by simp [goGCD]) hrest hne

theorem factorReduceTerm_length (g : ℤ) (t : Expr) (h : (termCoeff t).isSome) :
    (factorReduceTerm g t).length = 1 := by
  match t with
  | .mul fs =>
    simp only [termCoeff] at h
    simp only [factorReduceTerm]
    cases hp : (mulPartition fs).1 with
    | int c =>
      rw [show mulPartition fs = ((mulPartition fs).1, (mulPartition fs).2) from rfl, hp]
      by_cases h1 : isOne (Expr.int (goDiv c g)) = true
      · simp [h1]
      · simp [h1]
    | _ => rw [hp] at h; simp at h
  | .int c => rfl
  | .float v => rfl
  | .rat a b => rfl
  | .var s => rfl
  | .const s v => rfl
  | .add l => rfl
  | .pow a b => rfl
  | .func s l => rfl
  | .eq a b c => rfl


theorem flatMap_reduce_length (g : ℤ) : ∀ ts : List Expr, (∀ t ∈ ts, (termCoeff t).isSome) →
    (ts.flatMap (factorReduceTerm g)).length = ts.length := by
  intro ts
  induction ts with
  | nil => intro _; rfl
  | cons t0 ts ih =>
    intro h
    rw [List.flatMap_cons, List.length_append,
      factorReduceTerm_length g t0 (h t0 (List.mem_cons_self _ _)),
      ih (fun t ht => h t (List.mem_cons_of_mem _ ht))]
    simp [Nat.add_comm]

/-- C4: `(*Add).Factor` computes the gcd of all terms' integer
coefficients: when some term is a product whose partitioned coefficient
is not an integer (`termCoeff` is `none`) the sum is returned unchanged;
when every coefficient is an integer and their gcd exceeds 1, the result
is `gcd × (sum of the coefficient-reduced terms)`.  In particular
`factor(2*x + 4*y)` yields `2*(x + 2*y)`, and both forms evaluate to 10
at `x = 3, y = 1`. -/
theorem AddFactor_gcd_spec :
    (∀ ts : List Expr, 2 ≤ ts.length → (∃ t ∈ ts, termCoeff t = none) →
        AddFactor (Expr.add ts) = Expr.add ts)
    ∧ (∀ (ts : List Expr) (cs : List ℤ), 2 ≤ ts.length → ts.map termCoeff = cs.map some →
        1 < listGcdAux 0 cs →
        AddFactor (Expr.add ts) =
          NewMul [Expr.int (listGcdAux 0 cs),
                  Expr.add (ts.flatMap (factorReduceTerm (listGcdAux 0 cs)))])
    ∧ AddFactor (Expr.add [NewMul [Expr.int 2, Expr.var "x"], NewMul [Expr.int 4, Expr.var "y"]])
        = Expr.mul [Expr.int 2, Expr.add [Expr.var "x", Expr.mul [Expr.int 2, Expr.var "y"]]]
    ∧ evalExpr (Expr.add [NewMul [Expr.int 2, Expr.var "x"], NewMul [Expr.int 4, Expr.var "y"]])
        [("x", ⟨3, 1⟩), ("y", ⟨1, 1⟩)] = some ⟨10, 1⟩
    ∧ evalExpr (Expr.mul [Expr.int 2, Expr.add [Expr.var "x", Expr.mul [Expr.int 2, Expr.var "y"]]])
        [("x", ⟨3, 1⟩), ("y", ⟨1, 1⟩)] = some ⟨10, 1⟩ := by
  refine ⟨?_, ?_, rfl, rfl, rfl⟩
  · intro ts h2 habort
    match ts, h2 with
    | t1 :: t2 :: rest, _ =>
      simp only [AddFactor]
      rw [factorGcdLoop_abort _ _ habort]
  · intro ts cs h2 hmap hgt
    have hsome : ∀ t ∈ ts, (termCoeff t).isSome := by
      intro t ht
      have hmem : termCoeff t ∈ ts.map termCoeff := List.mem_map_of_mem _ ht
      rw [hmap] at hmem
      obtain ⟨c, _, hc⟩ := List.mem_map.mp hmem
      rw [← hc]
      rfl
    match ts, h2 with
    | t1 :: t2 :: rest, _ =>
      simp only [AddFactor]
      rw [factorGcdLoop_success (t1 :: t2 :: rest) cs 0 (le_refl 0) hmap (by omega)]
      simp only [Option.some.injEq]
      rw [if_pos hgt]
      have hlen := flatMap_reduce_length (listGcdAux 0 cs) (t1 :: t2 :: rest) hsome
      match hsh : (t1 :: t2 :: rest).flatMap (factorReduceTerm (listGcdAux 0 cs)), hlen with
      | u1 :: u2 :: us, _ => rfl


/-- C4 (witness): a sum containing the non-integer-coefficient product
`(1/2)*x` is returned unchanged, and the claim's own example factors as
`gcd × (reduced sum)` with gcd 2. -/
theorem AddFactor_gcd_spec_witness :
    AddFactor (Expr.add [Expr.mul [Expr.float ⟨1, 2⟩, Expr.var "x"], Expr.var "y"])
        = Expr.add [Expr.mul [Expr.float ⟨1, 2⟩, Expr.var "x"], Expr.var "y"]
    ∧ AddFactor (Expr.add [Expr.mul [Expr.int 2, Expr.var "x"], Expr.mul [Expr.int 4, Expr.var "y"]])
        = NewMul [Expr.int (listGcdAux 0 [2, 4]),
            Expr.add ([Expr.mul [Expr.int 2, Expr.var "x"],
              Expr.mul [Expr.int 4, Expr.var "y"]].flatMap
                (factorReduceTerm (listGcdAux 0 [2, 4])))] :=
  ⟨AddFactor_gcd_spec.1 _ (by decide) ⟨_, List.mem_cons_self _ _, rfl⟩,
   AddFactor_gcd_spec.2.1 _ [2, 4] (by decide) rfl (by decide)⟩

end CAS
